import Mathlib

/-!
Verification of the crawl engine and chunk/index pipeline of the
scraper repository.

Strings of the embedded programs are modelled as `List Char`.  The
JavaScript/Dart whitespace class used by the source in `trim`,
`replace` with a whitespace pattern and the heading test is modelled
by `isWsChar` below (the ASCII whitespace characters plus NBSP, the
characters that can actually occur in the programs' data).
-/

namespace Scraper

/-- The whitespace class: models the JS regex class and Dart `trim`
whitespace on the character repertoire handled by the programs. -/
def isWsChar (c : Char) : Bool :=
  c == ' ' || c == '\t' || c == '\n' || c == '\r' ||
  c == '\u000b' || c == '\u000c' || c == ' '

/-- Characters of a string literal, the bridge from Lean literals to
the `List Char` representation used throughout. -/
def lc (s : String) : List Char := s.data

/-- `trimEnd` of JS / the end-trimming half of Dart `trim`. -/
def trimEnd (l : List Char) : List Char :=
  (l.reverse.dropWhile isWsChar).reverse

/-- Drop leading whitespace (the start-trimming half of `trim`). -/
def trimStart (l : List Char) : List Char :=
  l.dropWhile isWsChar

/-- `trim` of JS/Dart: strip whitespace at both ends. -/
def trim (l : List Char) : List Char :=
  trimStart (trimEnd l)

/-- Remove a single trailing `'\r'`, if present. -/
def dropTrailCR (s : List Char) : List Char :=
  if s.getLast? = some '\r' then s.dropLast else s

/-- Strip one trailing `'\r'` from every piece except the last. -/
def stripCRs : List (List Char) → List (List Char)
  | [] => []
  | [s] => [s]
  | s :: rest => dropTrailCR s :: stripCRs rest

/-- Splitting on the JS regex `\r?\n`, as used by
`input.split(/\r?\n/)` in `normalize` and `splitIntoParagraphs`
(src/unnamed/part_001).  A `"\r\n"` pair and a lone `'\n'` are
separators; a lone `'\r'` stays inside its line.  Equivalently (as
here): split on `'\n'` and strip one trailing `'\r'` from every piece
that was followed by a separator, i.e. every piece but the last. -/
def splitLines (l : List Char) : List (List Char) :=
  stripCRs (l.splitOn '\n')

/-- Joining lines with `'\n'`, the `out.join('\n')` of `normalize`. -/
def joinLines (ls : List (List Char)) : List Char :=
  List.intercalate ['\n'] ls

/-- The test `/^\s*#{1,6}\s+/.test(line)`: optional leading whitespace,
one to six `'#'` characters, then at least one whitespace character.
(The regex backtracks over `#{1,6}`, but every shorter prefix of a
`'#'` run is followed by `'#'`, which is not whitespace, so the test
succeeds exactly when the whole leading run has length 1..6 and is
followed by whitespace.) -/
def isHeadingLine (l : List Char) : Bool :=
  let rest := l.dropWhile isWsChar
  let hs := rest.takeWhile (fun c => c == '#')
  decide (1 ≤ hs.length) && decide (hs.length ≤ 6) &&
    (match rest.dropWhile (fun c => c == '#') with
     | c :: _ => isWsChar c
     | [] => false)

/-- Splitting a line into its maximal whitespace-free words
(accumulator holds the current word reversed). -/
def wordsAux : List Char → List Char → List (List Char)
  | [], acc => if acc.isEmpty then [] else [acc.reverse]
  | c :: rest, acc =>
    if isWsChar c then
      if acc.isEmpty then wordsAux rest []
      else acc.reverse :: wordsAux rest []
    else wordsAux rest (c :: acc)

/-- The whitespace-separated words of a line. -/
def wordsOf (l : List Char) : List (List Char) :=
  wordsAux l []

/-- `line.replace(/\s+/g, ' ').trim()` of `normalize`
(src/unnamed/part_001 line 25): collapse every whitespace run to one
space and trim, i.e. rejoin the words with single spaces. -/
def collapseWs (l : List Char) : List Char :=
  List.intercalate [' '] (wordsOf l)

/-- Processing of one line by `normalize` (src/unnamed/part_001 lines
20-28): a markdown heading line is kept, trimmed at the end only;
any other line is whitespace-collapsed and kept if non-empty. -/
def normLine (l : List Char) : List (List Char) :=
  if isHeadingLine l then [trimEnd l]
  else
    let c := collapseWs l
    if c.isEmpty then [] else [c]

/-- `normalize` of src/unnamed/part_001 lines 15-31: split into lines,
keep heading lines (end-trimmed), collapse the rest, drop blank
lines, join with `'\n'`.  (`if (!input) return ''` is the empty-string
case.) -/
def normalize (input : List Char) : List Char :=
  if input.isEmpty then []
  else joinLines ((splitLines input).flatMap normLine)

/-!
## The bounded retrying fetcher's backoff
(`_computeBackoffMs`, src/lib/services/website_scraper.dart lines 302-316)
-/

/-- Lookup in a Dart `Map<String, String>` of response headers (the
`http` package lower-cases response header names). -/
def headerLookup (hs : List (List Char × List Char)) (k : List Char) :
    Option (List Char) :=
  (hs.find? (fun p => p.1 == k)).map (fun p => p.2)

/-- Value of a decimal digit. -/
def digitVal (c : Char) : Option Nat :=
  if '0' ≤ c ∧ c ≤ '9' then some (c.toNat - '0'.toNat) else none

/-- All-digit decimal parse; `none` on an empty or non-digit string. -/
def parseDigits (l : List Char) : Option Nat :=
  if l.isEmpty then none
  else l.foldl (fun acc c => acc.bind (fun n => (digitVal c).map (fun d => n * 10 + d)))
    (some 0)

/-- Dart's `int.tryParse` on its decimal forms: surrounding whitespace,
an optional sign, decimal digits.  (The `0x` hexadecimal form Dart also
accepts is not modelled; none of the embedded rules produce one.) -/
def dartIntTryParse (s : List Char) : Option Int :=
  match trim s with
  | '-' :: ds => (parseDigits ds).map (fun n => -(n : Int))
  | '+' :: ds => (parseDigits ds).map (fun n => (n : Int))
  | ds => (parseDigits ds).map (fun n => (n : Int))

/-- Dart `num.clamp lo hi`. -/
def intClamp (x lo hi : Int) : Int :=
  if x < lo then lo else if hi < x then hi else x

/-- The exponential branch of `_computeBackoffMs` (lines 311-315):
`base = 500 * (1 << (attempt - 1))`, `jitter = (base * 0.3).toInt()`,
`ms = base + jitter * ((attempt % 5) + 1)`, clamped to `[500, 15000]`.
On the doubles arising here (`base = 500·2^k`, small `k`) the product
`base * 0.3` is exact and `.toInt()` truncation equals `3 * base / 10`. -/
def expBackoffMs (attempt : Nat) : Int :=
  let base : Int := 500 * 2 ^ (attempt - 1)
  let jitter : Int := 3 * base / 10
  intClamp (base + jitter * (((attempt % 5 : Nat) : Int) + 1)) 500 15000

/-- `_computeBackoffMs` of the website scraper (lines 302-316): a
parsing `retry-after` header gives `seconds × 1000` clamped to
`[1000, 120000]`; anything else falls to the exponential branch. -/
def computeBackoffMs (attempt : Nat) (headers : List (List Char × List Char)) : Int :=
  match headerLookup headers (lc "retry-after") with
  | some ra =>
    match dartIntTryParse ra with
    | some seconds => intClamp (seconds * 1000) 1000 120000
    | none => expBackoffMs attempt
  | none => expBackoffMs attempt

/-- The exponential delay as the spec's §4.1(c) words it: `base =
500 × 2^(attempt−1)`, `jitter = base × 0.3 × ((attempt mod 5) + 1)`,
`delay = base + jitter`, clamped to `[500, 15000]` (the ×0.3 product
taken exactly, then truncated to an integer). -/
def c3ExpSpec (attempt : Nat) : Int :=
  let base : Int := 500 * 2 ^ (attempt - 1)
  intClamp (base + 3 * base * (((attempt % 5 : Nat) : Int) + 1) / 10) 500 15000

/-- The backoff delay as claim C3 states it, priority order (a), (b),
(c): (a) a parsing `Retry-After` gives `seconds×1000` clamped to
`[1000, 120000]`; (b) otherwise a rate-limit-remaining header reading
zero together with a parsing reset timestamp gives `(reset − now)×1000`
clamped to `[1000, 300000]`; (c) otherwise the exponential backoff. -/
def c3SpecDelay (attempt : Nat) (headers : List (List Char × List Char))
    (now : Int) : Int :=
  match (headerLookup headers (lc "retry-after")).bind dartIntTryParse with
  | some seconds => intClamp (seconds * 1000) 1000 120000
  | none =>
    if headerLookup headers (lc "x-ratelimit-remaining") == some (lc "0") then
      match (headerLookup headers (lc "x-ratelimit-reset")).bind dartIntTryParse with
      | some reset => intClamp ((reset - now) * 1000) 1000 300000
      | none => c3ExpSpec attempt
    else c3ExpSpec attempt

/-!
## The vector-store collection ensure (`ensureCollection`,
src/server/lib/qdrant.ts lines 17-38)
-/

/-- What one `ensureCollection` call did: how many creation (PUT)
requests it issued and whether it returned normally (`ok = false`
means it threw, which is fatal to the pipeline). -/
structure EnsureResult where
  putCalls : Nat
  ok : Bool
deriving DecidableEq, Repr

/-- `res.ok` of a fetch response: status in 200..299. -/
def resOk (status : Nat) : Bool := decide (200 ≤ status) && decide (status < 300)

/-- `ensureCollection` over the statuses the two HTTP calls would
return: `GET` status 200 → return (no PUT); any status other than 404
→ throw; 404 → one `PUT`, throwing unless the PUT response is ok. -/
def ensureCollection (getStatus putStatus : Nat) : EnsureResult :=
  if getStatus = 200 then ⟨0, true⟩
  else if getStatus ≠ 404 then ⟨0, false⟩
  else ⟨1, resOk putStatus⟩

/-- The vector store as the spec's §6 interface describes it: the
existence check returns 200 when the collection is present, 404
otherwise. -/
def qdrantGetStatus (present : Bool) : Nat := if present then 200 else 404

/-- One `ensureCollection` call against a store in state `present`;
returns the call's result and whether the collection exists
afterwards (a successful creation makes it exist). -/
def ensureOnStore (present : Bool) (putStatus : Nat) : EnsureResult × Bool :=
  let r := ensureCollection (qdrantGetStatus present) putStatus
  (r, present || (decide (r.putCalls = 1) && r.ok))

/-!
## The embedding/index pipeline (`buildRag`, src/unnamed/part_000
lines 45-113)

The pipeline is modelled over its per-operation outcomes: `files`
lists each file's chunk count (what `chunkTextToRag` produced for
it); `eOk`/`jOk`/`mOk g` tell whether the embedding call, the JSONL
export-line write and the optional markdown write for the chunk with
global index `g` succeed; `uOk f b` tells whether the `b`-th upsert
batch of file `f` succeeds.
-/

/-- Progress reported after `processed` chunks (src/unnamed/part_000
line 99): `70 + min(29, floor((processed / max(1, files.length)) *
29))`; the float product is modelled by natural division. -/
def progressValue (nFiles processed : Nat) : Nat :=
  70 + min 29 ((29 * processed) / max 1 nFiles)

/-- Chunk loop of one file: embedding then JSONL write may each fail,
which aborts (`false`); the markdown write's outcome is discarded,
mirroring `.catch(() => {})` on line 95.  Returns the success flag,
the progress values reported, and the next global chunk index. -/
def runFile (eOk jOk mOk : Nat → Bool) (md : Bool) (nFiles : Nat) :
    Nat → Nat → List Nat → Bool × List Nat × Nat
  | 0, g, acc => (true, acc.reverse, g)
  | k + 1, g, acc =>
    if eOk g then
      if jOk g then
        -- `await fs.writeFile(mdFile, ...).catch(() => {})`: discarded
        let _mdOutcome := if md then some (mOk g) else none
        runFile eOk jOk mOk md nFiles k (g + 1)
          (progressValue nFiles (g + 1) :: acc)
      else (false, acc.reverse, g)
    else (false, acc.reverse, g)

/-- Number of upsert batches for `k` points in batches of 64
(`batch(points, 64)`). -/
def numBatches (k : Nat) : Nat := (k + 63) / 64

/-- The per-file upsert loop: every batch must succeed. -/
def runBatches (uOk : Nat → Bool) : Nat → Nat → Bool
  | 0, _ => true
  | b + 1, i => uOk i && runBatches uOk b (i + 1)

/-- Outcome of a `buildRag` run: whether it aborted with an error and
the progress values reported, grouped by file. -/
structure RagRunResult where
  aborted : Bool
  progressPerFile : List (List Nat)
deriving DecidableEq, Repr

/-- The file loop of `buildRag` (lines 68-107): chunk each file,
embed + export each chunk, then upsert the file's points in batches;
a failing embed, JSONL write or upsert propagates (aborts the whole
run), a failing markdown write does not. -/
def buildRagGo (eOk jOk mOk : Nat → Bool) (uOk : Nat → Nat → Bool) (md : Bool)
    (nFiles : Nat) : List Nat → Nat → Nat → List (List Nat) → RagRunResult
  | [], _, _, acc => ⟨false, acc.reverse⟩
  | k :: rest, f, g, acc =>
    match runFile eOk jOk mOk md nFiles k g [] with
    | (ok, prog, g') =>
      if ok then
        if runBatches (uOk f) (numBatches k) 0 then
          buildRagGo eOk jOk mOk uOk md nFiles rest (f + 1) g' (prog :: acc)
        else ⟨true, (prog :: acc).reverse⟩
      else ⟨true, (prog :: acc).reverse⟩

/-- A whole `buildRag` run over the per-operation outcomes. -/
def buildRagRun (files : List Nat) (eOk jOk mOk : Nat → Bool)
    (uOk : Nat → Nat → Bool) (md : Bool) : RagRunResult :=
  buildRagGo eOk jOk mOk uOk md files.length files 0 0 []

/-- The progress values `buildRag` reports, per file, as a function of
the cumulative chunk count (the amended description of claim C9). -/
def progressSpec (nFiles : Nat) : List Nat → Nat → List (List Nat)
  | [], _ => []
  | k :: rest, g =>
    (List.range k).map (fun i => progressValue nFiles (g + i + 1)) ::
      progressSpec nFiles rest (g + k)

/-!
## The robots policy engine (`_RobotsRules` and `_Rule`,
src/lib/services/website_scraper.dart lines 670-780)
-/

/-- One parsed `Allow:`/`Disallow:` rule. -/
structure RRule where
  path : List Char
  isAllow : Bool
deriving DecidableEq, Repr

/-- `_Rule._normalizeRulePath` (lines 771-779): trim, strip every
`'*'`, ensure a leading slash on a non-empty result. -/
def normalizeRulePath (p : List Char) : List Char :=
  let s := trim p
  if s.isEmpty then s
  else
    let s2 := s.filter (fun c => !(c == '*'))
    match s2 with
    | '/' :: _ => s2
    | _ => '/' :: s2

/-- The resolved rule set for the chosen user-agent group. -/
structure RobotsRules where
  allow : List (List Char)
  disallow : List (List Char)
deriving DecidableEq, Repr

/-- `_RobotsRules.allowAll()` (line 676). -/
def allowAllRules : RobotsRules := ⟨[[]], []⟩

/-- Dart `String.contains`: `pat` occurs inside `s`. -/
def dartContains (s pat : List Char) : Bool :=
  match s with
  | [] => pat.isEmpty
  | _ :: t => pat.isPrefixOf s || dartContains t pat

/-- ASCII lower-casing, Dart `toLowerCase` on the data handled here. -/
def toLowerStr (l : List Char) : List Char := l.map Char.toLower

/-- `putIfAbsent` on the insertion-ordered group map. -/
def putIfAbsent (gs : List (List Char × List RRule)) (agent : List Char) :
    List (List Char × List RRule) :=
  if gs.any (fun g => g.1 == agent) then gs else gs ++ [(agent, [])]

/-- `groups[currentAgent]!.add(rule)`. -/
def addRule (gs : List (List Char × List RRule)) (agent : List Char) (r : RRule) :
    List (List Char × List RRule) :=
  gs.map (fun g => if g.1 == agent then (g.1, g.2 ++ [r]) else g)

/-- One line of `_RobotsRules.parse` (lines 694-712): trim, skip blank
and comment lines, split on every `':'`, dispatch on the lower-cased
key; a `user-agent` line starts a group (empty value means `*`). -/
def robotsParseStep (st : List (List Char × List RRule) × List Char)
    (raw : List Char) : List (List Char × List RRule) × List Char :=
  let line := trim raw
  if line.isEmpty then st
  else if line.head? = some '#' then st
  else
    let parts := line.splitOn ':'
    if parts.length < 2 then st
    else
      let key := toLowerStr (trim parts.headI)
      let value := trim (List.intercalate [':'] parts.tail)
      if key == lc "user-agent" then
        let agent := if value.isEmpty then lc "*" else toLowerStr value
        (putIfAbsent st.1 agent, agent)
      else if key == lc "allow" then
        (addRule st.1 st.2 ⟨normalizeRulePath value, true⟩, st.2)
      else if key == lc "disallow" then
        (addRule st.1 st.2 ⟨normalizeRulePath value, false⟩, st.2)
      else st

/-- `_RobotsRules.parse` (lines 681-735): split into lines, fold the
line parser starting from the implicit `*` group, then choose the
first non-`*` group whose agent occurs in the requesting user-agent,
falling back to the `*` group. -/
def robotsParse (robotsTxt userAgent : List Char) : RobotsRules :=
  let lines := robotsTxt.splitOn '\n'
  let st := lines.foldl robotsParseStep (putIfAbsent [] (lc "*"), lc "*")
  let uaLower := toLowerStr userAgent
  let rules :=
    match st.1.find? (fun (g : List Char × List RRule) =>
        !(g.1 == lc "*") && dartContains uaLower g.1) with
    | some g => g.2
    | none =>
      match st.1.find? (fun (g : List Char × List RRule) => g.1 == lc "*") with
      | some g => g.2
      | none => []
  ⟨(rules.filter (fun (r : RRule) => r.isAllow)).map (fun (r : RRule) => r.path),
   (rules.filter (fun (r : RRule) => !r.isAllow)).map (fun (r : RRule) => r.path)⟩

/-- The allow-side fold of `isAllowed` (lines 743-751): an empty rule
counts as a match of length 0; otherwise a rule matching as a prefix
raises the best length. -/
def allowStep (norm : List Char) (best : Int) (a : List Char) : Int :=
  if a.isEmpty then (if best < 0 then 0 else best)
  else if a.isPrefixOf norm then
    (if (a.length : Int) > best then (a.length : Int) else best)
  else best

/-- The disallow-side fold of `isAllowed` (lines 753-758): empty rules
are skipped. -/
def disallowStep (norm : List Char) (best : Int) (d : List Char) : Int :=
  if d.isEmpty then best
  else if d.isPrefixOf norm then
    (if (d.length : Int) > best then (d.length : Int) else best)
  else best

/-- `_RobotsRules.isAllowed` (lines 737-763). -/
def isAllowed (r : RobotsRules) (path : List Char) : Bool :=
  let norm := if path.isEmpty then lc "/" else path
  let bestAllow := r.allow.foldl (allowStep norm) (-1)
  let bestDis := r.disallow.foldl (disallowStep norm) (-1)
  if bestDis < 0 && bestAllow < 0 then true
  else if bestAllow ≥ bestDis then true
  else false

/-!
## The chunker (`chunkTextToRag` and helpers, src/unnamed/part_001
lines 33-129)
-/

/-- `estimateTokens`: `Math.ceil(text.length / 4)`. -/
def estimateTokens (s : List Char) : Nat := (s.length + 3) / 4

/-- `splitIntoParagraphs` (lines 38-61): heading lines are their own
paragraphs, blank lines flush the buffer, other lines are trimmed and
buffered; a flushed buffer joins with single spaces; empty paragraphs
are dropped. -/
def splitIntoParagraphs (text : List Char) : List (List Char) :=
  let flush := fun (buf : List (List Char)) =>
    if buf.isEmpty then ([] : List (List Char))
    else [trim (List.intercalate [' '] buf)]
  let step := fun (st : List (List Char) × List (List Char)) (line : List Char) =>
    if isHeadingLine line then (st.1 ++ flush st.2 ++ [trim line], [])
    else if (trim line).isEmpty then (st.1 ++ flush st.2, [])
    else (st.1, st.2 ++ [trim line])
  let st := (splitLines text).foldl step ([], [])
  (st.1 ++ flush st.2).filter (fun p => !p.isEmpty)

/-- Sentence-ending punctuation of the splitter's regex. -/
def isSentEnd (c : Char) : Bool := c == '.' || c == '!' || c == '?'

/-- The scan of `text.split(/(?<=[.!\?])\s+|\n+/)`, one character at
a time: a whitespace run preceded by sentence-ending punctuation, or a
newline run, separates segments.  `acc` holds the current segment
reversed (so its head is the previous character, the regex
lookbehind); `mode` 1 means inside a post-punctuation whitespace run
(`\s+`, which greedily consumes newlines too), `mode` 2 inside a
newline run (`\n+`), `mode` 0 inside a segment.  Both runs are
maximal, so the first character that ends a run starts the next
segment. -/
def sentScan : List Char → Nat → List Char → List (List Char)
  | [], _, acc => [acc.reverse]
  | c :: rest, mode, acc =>
    if mode = 1 then
      if isWsChar c then sentScan rest 1 []
      else sentScan rest 0 [c]
    else if mode = 2 then
      if c == '\n' then sentScan rest 2 []
      else sentScan rest 0 [c]
    else
      if isWsChar c && (match acc with | p :: _ => isSentEnd p | [] => false) then
        acc.reverse :: sentScan rest 1 []
      else if c == '\n' then
        acc.reverse :: sentScan rest 2 []
      else sentScan rest 0 (c :: acc)

/-- `splitIntoSentences` (lines 63-71): drop `'\r'`, split, trim each
segment, keep the non-empty ones. -/
def splitIntoSentences (text : List Char) : List (List Char) :=
  ((sentScan (text.filter (fun c => !(c == '\r'))) 0 []).map trim).filter
    (fun s => !s.isEmpty)

/-- The flat sentence list of `chunkTextToRag` (lines 84-92): headings
stand alone, other paragraphs split into sentences. -/
def chunkSentenceList (text : List Char) : List (List Char) :=
  (splitIntoParagraphs text).flatMap
    (fun p => if isHeadingLine p then [p] else splitIntoSentences p)

/-- One chunk of `chunkTextToRag`. -/
structure RagChunk where
  id : List Char
  ord : Nat
  text : List Char
  name : List Char
  url : List Char
deriving DecidableEq, Repr

/-- The chunk id `` `${name}:${ord}` ``. -/
def mkChunkId (name : List Char) (ord : Nat) : List Char :=
  name ++ ':' :: Nat.toDigits 10 ord

/-- The inner greedy loop (lines 101-107) past the first sentence:
how many further sentences fit, given the running token count (the
first sentence of a chunk is always included by the `buf.length > 0`
guard, so this helper is entered with it already counted). -/
def packLen (target : Nat) : List (List Char) → Nat → Nat
  | [], _ => 0
  | s :: r, tokens =>
    let t := estimateTokens s
    if target < tokens + t then 0 else 1 + packLen target r (tokens + t)

/-- The exclusive end index `j` of the chunk starting at `i`. -/
def chunkEnd (sents : List (List Char)) (target i : Nat) : Nat :=
  match sents.drop i with
  | [] => i
  | s :: r => i + 1 + packLen target r (estimateTokens s)

/-- The backward overlap scan (lines 120-125): how many sentences the
`while (k >= 0 && backTokens < overlapTokens)` loop consumes, walking
the reversed prefix. -/
def backCount (overlap : Nat) : List (List Char) → Nat → Nat
  | [], _ => 0
  | s :: r, back =>
    if back < overlap then 1 + backCount overlap r (back + estimateTokens s) else 0

/-- The next start index (line 126):
`i = Math.max(0, j - Math.max(1, (j - 1) - k))`, where `k` is the
final index of the backward scan, so `(j - 1) - k` is the number of
sentences the scan consumed; `Nat` subtraction models the outer
`Math.max(0, ·)`. -/
def nextStart (sents : List (List Char)) (overlap j : Nat) : Nat :=
  j - max 1 (backCount overlap ((sents.take j).reverse) 0)

/-- The chunking loop of `chunkTextToRag` (lines 94-127), with an
explicit fuel bound on the number of loop iterations: `none` means
the source's `while` loop has not terminated within `fuel`
iterations. -/
def chunkLoop (sents : List (List Char)) (name url : List Char)
    (target overlap : Nat) : Nat → Nat → Nat → List RagChunk → Option (List RagChunk)
  | 0, _, _, _ => none
  | fuel + 1, i, ord, acc =>
    if i < sents.length then
      let j := chunkEnd sents target i
      let textChunk := trim (List.intercalate [' '] ((sents.drop i).take (j - i)))
      let acc' := if textChunk.isEmpty then acc
        else acc ++ [⟨mkChunkId name ord, ord, textChunk, name, url⟩]
      let ord' := if textChunk.isEmpty then ord else ord + 1
      if sents.length ≤ j then some acc'
      else chunkLoop sents name url target overlap fuel (nextStart sents overlap j) ord' acc'
    else some acc

/-- `chunkTextToRag` (lines 73-129) with the loop's fuel made
explicit. -/
def chunkTextToRag (fuel : Nat) (rawText name url : List Char)
    (target overlap : Nat) : Option (List RagChunk) :=
  let text := normalize rawText
  if text.isEmpty then some []
  else chunkLoop (chunkSentenceList text) name url target overlap fuel 0 0 []

/-!
## The documentation crawler (`crawlDocs`, src/server/lib/scraper.ts
lines 76-140)

URLs are modelled by `UrlM`; `parseAbsUrl`/`resolveUrl` model the
`new URL(href, base)` library calls on the forms the crawler meets:
absolute `scheme://host/path#frag` URLs and path-absolute references
(other relative forms are not modelled).
-/

/-- Split `scheme://rest` at the first `"://"`. -/
def splitScheme : List Char → Option (List Char × List Char)
  | [] => none
  | ':' :: '/' :: '/' :: rest => some ([], rest)
  | c :: rest => (splitScheme rest).map (fun pr => (c :: pr.1, pr.2))

/-- A parsed URL: scheme, host, path (with a `/` default), fragment. -/
structure UrlM where
  scheme : List Char
  host : List Char
  path : List Char
  frag : List Char
deriving DecidableEq, Repr

/-- Parse an absolute URL. -/
def parseAbsUrl (s : List Char) : Option UrlM :=
  match splitScheme s with
  | none => none
  | some (scheme, rest) =>
    if scheme.isEmpty then none
    else
      let host := rest.takeWhile (fun c => !(c == '/') && !(c == '#'))
      let after := rest.drop host.length
      let path := after.takeWhile (fun c => !(c == '#'))
      let frag := (after.drop path.length).drop 1
      some ⟨scheme, host, if path.isEmpty then lc "/" else path, frag⟩

/-- `url.toString()`. -/
def urlToString (u : UrlM) : List Char :=
  u.scheme ++ lc "://" ++ u.host ++ u.path ++
    (if u.frag.isEmpty then [] else '#' :: u.frag)

/-- `url.origin` (ports are not modelled). -/
def urlOrigin (u : UrlM) : List Char := u.scheme ++ lc "://" ++ u.host

/-- `['http:', 'https:'].includes(url.protocol)`. -/
def isHttpScheme (s : List Char) : Bool := s == lc "http" || s == lc "https"

/-- `normalizeUrl(href, base)` (lines 66-74): parse `href` against the
page's URL and keep only http(s) results. -/
def resolveUrl (href : List Char) (base : UrlM) : Option UrlM :=
  match parseAbsUrl href with
  | some u => if isHttpScheme u.scheme then some u else none
  | none =>
    match href with
    | '/' :: _ =>
      let path := href.takeWhile (fun c => !(c == '#'))
      let frag := (href.drop path.length).drop 1
      some ⟨base.scheme, base.host, path, frag⟩
    | _ => none

/-- `u.toString().replace(/#.*$/, '')`. -/
def stripFragStr (s : List Char) : List Char := s.takeWhile (fun c => !(c == '#'))

/-- A fetched page as the crawler sees it: the extracted content
(empty = nothing useful) and the `href` attributes of its anchors. -/
structure PageM where
  content : List Char
  hrefs : List (List Char)

/-- The link-expansion block (lines 124-135): skip empty, fragment,
`mailto:` and `javascript:` hrefs, resolve, keep the same-origin ones,
strip the fragment, and enqueue at depth `d + 1` unless visited. -/
def extractEnqueues (origin : List Char) (base : UrlM) (hrefs : List (List Char))
    (visited : List (List Char)) (d : Nat) : List (List Char × Nat × List Char) :=
  hrefs.foldl (fun acc href =>
    if href.isEmpty then acc
    else if (lc "#").isPrefixOf href || (lc "mailto:").isPrefixOf href ||
        (lc "javascript:").isPrefixOf href then acc
    else
      match resolveUrl href base with
      | none => acc
      | some u =>
        if urlOrigin u == origin then
          let clean := stripFragStr (urlToString u)
          if visited.contains clean then acc else acc ++ [(clean, d + 1, origin)]
        else acc) []

/-- What a `crawlDocs` run did: the urls it kept as files, the visited
set, and every queue push (url, depth) including the seeds. -/
structure CrawlDocsResult where
  files : List (List Char)
  visited : List (List Char)
  enqueueLog : List (List Char × Nat)
deriving DecidableEq, Repr

/-- The `while` loop of `crawlDocs` (lines 92-137) over a page oracle,
with explicit fuel: dequeue, skip visited, mark visited, fetch (a
missing page is a failed fetch), count non-empty content as a
processed file, and expand links only while `d < depth`. -/
def crawlDocsGo (pages : List (List Char × PageM)) (depth maxPages : Nat) :
    Nat → List (List Char × Nat × List Char) → List (List Char) → Nat →
    List (List Char) → List (List Char × Nat) → CrawlDocsResult
  | 0, _, visited, _, files, log => ⟨files, visited, log⟩
  | fuel + 1, queue, visited, processed, files, log =>
    if maxPages ≤ processed then ⟨files, visited, log⟩
    else
      match queue with
      | [] => ⟨files, visited, log⟩
      | (url, d, origin) :: rest =>
        if visited.contains url then
          crawlDocsGo pages depth maxPages fuel rest visited processed files log
        else
          let visited' := visited ++ [url]
          match pages.find? (fun p => p.1 == url) with
          | none => crawlDocsGo pages depth maxPages fuel rest visited' processed files log
          | some pg =>
            let files' := if pg.2.content.isEmpty then files else files ++ [url]
            let processed' := if pg.2.content.isEmpty then processed else processed + 1
            let newItems :=
              if d < depth then
                match parseAbsUrl url with
                | some base => extractEnqueues origin base pg.2.hrefs visited' d
                | none => []
              else []
            crawlDocsGo pages depth maxPages fuel (rest ++ newItems) visited' processed'
              files' (log ++ newItems.map (fun it => (it.1, it.2.1)))

/-- Seed initialisation (lines 83-90): parse each seed, enqueue it at
depth 0 with its own origin. -/
def crawlSeedInit (seeds : List (List Char)) :
    List (List Char × Nat × List Char) × List (List Char × Nat) :=
  seeds.foldl (fun st s =>
    match parseAbsUrl s with
    | some u => (st.1 ++ [(urlToString u, 0, urlOrigin u)], st.2 ++ [(urlToString u, 0)])
    | none => st) ([], [])

/-- `crawlDocs(seeds, depth, maxPages, ...)` over a page oracle. -/
def crawlDocs (fuel : Nat) (pages : List (List Char × PageM))
    (seeds : List (List Char)) (depth maxPages : Nat) : CrawlDocsResult :=
  let init := crawlSeedInit seeds
  crawlDocsGo pages depth maxPages fuel init.1 [] 0 [] init.2

/-!
## The deduplicating crawl loop of the website scraper
(`WebsiteScraper.scrape` and `_scrapePage`,
src/lib/services/website_scraper.dart lines 62-256)

A small-step system over normalized URLs.  `enqueue` models the
`enqueue` closure (lines 76-86, deduplicating against `seenQueued`
and `_processedUrls`); it covers seeds, sitemap URLs and link
discovery alike.  `dispatch`/`dispatchSkip` model the batch loop's
`queue.removeAt(0)` with its `_processedUrls.contains` check (lines
125-128).  `guardHit`/`guardPass` model the atomic (no `await`
between them) check-and-mark at the top of `_scrapePage` (lines
195-196); `fetch` is that page's single `_getWithRetry` call (line
218).  `pending`/`inflight` are multisets of workers in the
corresponding program region; any interleaving of steps is allowed.
-/

/-- Normalized URL strings. -/
abbrev UrlS := List Char

/-- State of one crawl run. -/
structure DedupState where
  queue : List UrlS
  seen : List UrlS
  processed : List UrlS
  pending : List UrlS
  inflight : List UrlS
  fetchLog : List UrlS

/-- The crawl loop's transitions. -/
inductive DedupStep : DedupState → DedupState → Prop
  | enqueue (u : UrlS) (s : DedupState) :
      u ∉ s.seen → u ∉ s.processed →
      DedupStep s { s with queue := s.queue ++ [u], seen := u :: s.seen }
  | dispatch (u : UrlS) (rest : List UrlS) (s : DedupState) :
      s.queue = u :: rest → u ∉ s.processed →
      DedupStep s { s with queue := rest, pending := u :: s.pending }
  | dispatchSkip (u : UrlS) (rest : List UrlS) (s : DedupState) :
      s.queue = u :: rest → u ∈ s.processed →
      DedupStep s { s with queue := rest }
  | guardHit (u : UrlS) (s : DedupState) :
      u ∈ s.pending → u ∈ s.processed →
      DedupStep s { s with pending := s.pending.erase u }
  | guardPass (u : UrlS) (s : DedupState) :
      u ∈ s.pending → u ∉ s.processed →
      DedupStep s { s with
        pending := s.pending.erase u,
        processed := u :: s.processed,
        inflight := u :: s.inflight }
  | fetch (u : UrlS) (s : DedupState) :
      u ∈ s.inflight →
      DedupStep s { s with
        inflight := s.inflight.erase u,
        fetchLog := u :: s.fetchLog }

/-- The state at the top of `scrape` (all sets cleared). -/
def dedupInit : DedupState := ⟨[], [], [], [], [], []⟩

/-- States a crawl run can be in. -/
inductive DedupReachable : DedupState → Prop
  | init : DedupReachable dedupInit
  | step {s s' : DedupState} :
      DedupReachable s → DedupStep s s' → DedupReachable s'

/-!
## The scheduler: global semaphore and per-host politeness
(`WebsiteScraper.scrape`, `_scrapePage` and `Semaphore`,
src/lib/services/website_scraper.dart lines 113-256 and 629-654)

Workers are numbered `0 .. nW-1`; `hostOf w` is the host of the URL
worker `w` processes.  The global `Semaphore(concurrency)` is the
pair `semCount`/`semQueue` (its `_currentCount` and `_waitQueue`);
each per-host `Semaphore(1)` is `hostFree h`/`hostQueue h`.  A worker
passes through: acquire the global semaphore, acquire the host lock,
wait until `delayMs` has elapsed since `lastReq` of its host
(lines 207-215), fetch (`_getWithRetry`), then in `finally` set
`lastReq` and release the host lock (lines 252-255), and finally
release the global semaphore (line 175).  `log` records each fetch's
(host, start time).
-/

/-- Phase of one worker. -/
inductive WPhase where
  | idle
  | semWaiting
  | semHeld
  | hostWaiting
  | hostHeld
  | fetching (start : Nat)
  | hostReleased
  | done
deriving DecidableEq

/-- A crawl run's fixed configuration. -/
structure SchedCfg where
  conc : Nat
  delayMs : Nat
  nW : Nat
  hostOf : Nat → UrlS

/-- Pointwise update of a worker map. -/
def updFn {β : Type} (f : Nat → β) (w : Nat) (v : β) : Nat → β :=
  fun x => if x = w then v else f x

/-- Pointwise update of a host map. -/
def updHost {β : Type} (f : UrlS → β) (h : UrlS) (v : β) : UrlS → β :=
  fun x => if x = h then v else f x

/-- Scheduler state. -/
structure SchedState where
  now : Nat
  semCount : Nat
  semQueue : List Nat
  hostFree : UrlS → Bool
  hostQueue : UrlS → List Nat
  lastReq : UrlS → Option Nat
  phase : Nat → WPhase
  log : List (UrlS × Nat)

/-- Phases in which a worker holds the global semaphore: from the
moment `acquire()` resolves to the moment `release()` runs. -/
def isHolder : WPhase → Bool
  | .semHeld => true
  | .hostWaiting => true
  | .hostHeld => true
  | .fetching _ => true
  | .hostReleased => true
  | _ => false

/-- A fetch in flight. -/
def isFetching : WPhase → Bool
  | .fetching _ => true
  | _ => false

/-- Phases in which a worker holds its per-host lock. -/
def holdsHost : WPhase → Bool
  | .hostHeld => true
  | .fetching _ => true
  | _ => false

/-- Initial state of a run. -/
def schedInit (cfg : SchedCfg) : SchedState :=
  ⟨0, cfg.conc, [], fun _ => true, fun _ => [], fun _ => none, fun _ => .idle, []⟩

/-- The scheduler's transitions; time advances by `tick`, and every
interleaving of worker steps is allowed. -/
inductive SchedStep (cfg : SchedCfg) : SchedState → SchedState → Prop
  | tick (s : SchedState) :
      SchedStep cfg s { s with now := s.now + 1 }
  | semAcquireFast (w : Nat) (s : SchedState) :
      w < cfg.nW → s.phase w = .idle → 0 < s.semCount →
      SchedStep cfg s { s with
        semCount := s.semCount - 1,
        phase := updFn s.phase w .semHeld }
  | semAcquireWait (w : Nat) (s : SchedState) :
      w < cfg.nW → s.phase w = .idle → s.semCount = 0 →
      SchedStep cfg s { s with
        semQueue := s.semQueue ++ [w],
        phase := updFn s.phase w .semWaiting }
  | hostAcquire (w : Nat) (s : SchedState) :
      w < cfg.nW → s.phase w = .semHeld → s.hostFree (cfg.hostOf w) = true →
      SchedStep cfg s { s with
        hostFree := updHost s.hostFree (cfg.hostOf w) false,
        phase := updFn s.phase w .hostHeld }
  | hostWait (w : Nat) (s : SchedState) :
      w < cfg.nW → s.phase w = .semHeld → s.hostFree (cfg.hostOf w) = false →
      SchedStep cfg s { s with
        hostQueue := updHost s.hostQueue (cfg.hostOf w)
          (s.hostQueue (cfg.hostOf w) ++ [w]),
        phase := updFn s.phase w .hostWaiting }
  | startFetch (w : Nat) (s : SchedState) :
      w < cfg.nW → s.phase w = .hostHeld →
      (∀ t, s.lastReq (cfg.hostOf w) = some t → t + cfg.delayMs ≤ s.now) →
      SchedStep cfg s { s with
        phase := updFn s.phase w (.fetching s.now),
        log := s.log ++ [(cfg.hostOf w, s.now)] }
  | endFetchFree (w : Nat) (s : SchedState) (st : Nat) :
      w < cfg.nW → s.phase w = .fetching st →
      s.hostQueue (cfg.hostOf w) = [] →
      SchedStep cfg s { s with
        lastReq := updHost s.lastReq (cfg.hostOf w) (some s.now),
        hostFree := updHost s.hostFree (cfg.hostOf w) true,
        phase := updFn s.phase w .hostReleased }
  | endFetchPass (w v : Nat) (rest : List Nat) (s : SchedState) (st : Nat) :
      w < cfg.nW → s.phase w = .fetching st →
      s.hostQueue (cfg.hostOf w) = v :: rest →
      SchedStep cfg s { s with
        lastReq := updHost s.lastReq (cfg.hostOf w) (some s.now),
        hostQueue := updHost s.hostQueue (cfg.hostOf w) rest,
        phase := updFn (updFn s.phase w .hostReleased) v .hostHeld }
  | skipFetch (w : Nat) (s : SchedState) :
      w < cfg.nW → s.phase w = .semHeld →
      SchedStep cfg s { s with phase := updFn s.phase w .hostReleased }
  | semReleaseFree (w : Nat) (s : SchedState) :
      w < cfg.nW → s.phase w = .hostReleased → s.semQueue = [] →
      SchedStep cfg s { s with
        semCount := s.semCount + 1,
        phase := updFn s.phase w .done }
  | semReleasePass (w v : Nat) (rest : List Nat) (s : SchedState) :
      w < cfg.nW → s.phase w = .hostReleased → s.semQueue = v :: rest →
      SchedStep cfg s { s with
        semQueue := rest,
        phase := updFn (updFn s.phase w .done) v .semHeld }

/-- Reachable scheduler states. -/
inductive SchedReachable (cfg : SchedCfg) : SchedState → Prop
  | init : SchedReachable cfg (schedInit cfg)
  | step {s s' : SchedState} :
      SchedReachable cfg s → SchedStep cfg s s' → SchedReachable cfg s'

/-- Number of fetches in flight. -/
def fetchCount (cfg : SchedCfg) (s : SchedState) : Nat :=
  (List.range cfg.nW).countP (fun w => isFetching (s.phase w))

/-- Number of workers holding the global semaphore. -/
def holderCount (cfg : SchedCfg) (s : SchedState) : Nat :=
  (List.range cfg.nW).countP (fun w => isHolder (s.phase w))

/-- Number of workers holding host `h`'s lock. -/
def hostHolderCount (cfg : SchedCfg) (s : SchedState) (h : UrlS) : Nat :=
  (List.range cfg.nW).countP
    (fun w => holdsHost (s.phase w) && decide (cfg.hostOf w = h))

/-- Inductive invariant of the deduplicating crawl loop: for every
URL, the fetches already performed plus the workers past the guard
stay within one, and only for processed URLs. -/
def DedupInv (s : DedupState) : Prop :=
  ∀ u : UrlS,
    s.fetchLog.count u + s.inflight.count u ≤ (if u ∈ s.processed then 1 else 0)

/-- Inductive invariant of the scheduler: semaphore accounting, queue
sanity, host-lock mutual exclusion, clock monotonicity facts, and
coverage of every logged fetch start by either its in-flight worker
or the host's last-request timestamp; the last conjunct is the
per-host spacing of fetch starts. -/
def SchedInv (cfg : SchedCfg) (s : SchedState) : Prop :=
  (holderCount cfg s + s.semCount = cfg.conc) ∧
  (∀ w ∈ s.semQueue, w < cfg.nW ∧ s.phase w = .semWaiting) ∧
  s.semQueue.Nodup ∧
  (∀ h : UrlS, (∀ w ∈ s.hostQueue h,
      w < cfg.nW ∧ s.phase w = .hostWaiting ∧ cfg.hostOf w = h) ∧
    (s.hostQueue h).Nodup) ∧
  (∀ h : UrlS, hostHolderCount cfg s h + (if s.hostFree h then 1 else 0) = 1) ∧
  (∀ (h : UrlS) (t : Nat), s.lastReq h = some t → t ≤ s.now) ∧
  (∀ (w st : Nat), s.phase w = .fetching st → st ≤ s.now) ∧
  (∀ e ∈ s.log,
    (∃ w, w < cfg.nW ∧ cfg.hostOf w = e.1 ∧ s.phase w = .fetching e.2) ∨
    (∃ t, s.lastReq e.1 = some t ∧ e.2 ≤ t)) ∧
  s.log.Pairwise (fun e1 e2 => e1.1 = e2.1 → e1.2 + cfg.delayMs ≤ e2.2)

/-- The spec's frontier-filtering scenario (§8 scenario 3): the seed
page links to a same-origin page, a cross-origin page, a fragment-only
reference and a `mailto:`; the same-origin target has a further link
of its own. -/
def c6Pages : List (List Char × PageM) :=
  [(lc "https://a.test/index.html",
    ⟨lc "index content",
     [lc "https://a.test/b", lc "https://x.test/c", lc "#frag", lc "mailto:x@y.com"]⟩),
   (lc "https://a.test/b", ⟨lc "b content", [lc "https://a.test/d"]⟩)]

end Scraper

namespace Scraper

example : normalize (lc " # ") = lc " #" := by decide
example : normalize (lc " #") = lc "#" := by decide
example : normalize (lc "a  b\n\n# T\nc") = lc "a b\n# T\nc" := by decide

/-! ### Elementary facts about `trimEnd` -/

theorem dropWhile_eq_self_of_all {p : Char → Bool} {l : List Char}
    (h : ∀ c ∈ l, p c = false) : l.dropWhile p = l := by
  cases l with
  | nil => rfl
  | cons c r => simp [List.dropWhile, h c (by simp)]

theorem trimEnd_idem (l : List Char) : trimEnd (trimEnd l) = trimEnd l := by
  simp [trimEnd, List.dropWhile_idempotent]

theorem trimEnd_all {l : List Char} (h : ∀ c ∈ l, isWsChar c = false) :
    trimEnd l = l := by
  unfold trimEnd
  rw [dropWhile_eq_self_of_all (by intro c hc; exact h c (List.mem_reverse.mp hc))]
  simp

theorem trimEnd_append (a b : List Char) :
    trimEnd (a ++ b) = if trimEnd b = [] then trimEnd a else a ++ trimEnd b := by
  unfold trimEnd
  rw [List.reverse_append, List.dropWhile_append]
  rcases hd : List.dropWhile isWsChar b.reverse with _ | ⟨c, t⟩
  · simp [hd]
  · simp [hd]

theorem trimEnd_eq_nil_iff {l : List Char} :
    trimEnd l = [] ↔ ∀ c ∈ l, isWsChar c = true := by
  unfold trimEnd
  rw [List.reverse_eq_nil_iff, List.dropWhile_eq_nil_iff]
  constructor
  · intro h c hc
    exact h c (List.mem_reverse.mpr hc)
  · intro h c hc
    exact h c (List.mem_reverse.mp hc)

theorem mem_trimEnd {c : Char} {l : List Char} (h : c ∈ trimEnd l) : c ∈ l := by
  unfold trimEnd at h
  rw [List.mem_reverse] at h
  exact List.mem_reverse.mp ((List.dropWhile_sublist _).mem h)

theorem getLast_not_ws_of_trimEnd_eq {l : List Char} (h : trimEnd l = l)
    {c : Char} (hc : l.getLast? = some c) : isWsChar c = false := by
  by_contra hws
  simp only [Bool.not_eq_false] at hws
  rw [← List.head?_reverse] at hc
  obtain ⟨t, ht⟩ : ∃ t, l.reverse = c :: t := by
    cases hr : l.reverse with
    | nil => rw [hr] at hc; simp at hc
    | cons a t => rw [hr] at hc; simp at hc; exact ⟨t, by rw [hc]⟩
  have hlen : (trimEnd l).length < l.length := by
    unfold trimEnd
    rw [ht]
    simp only [List.length_reverse, List.dropWhile_cons, hws, if_true]
    calc (t.dropWhile isWsChar).length ≤ t.length := (List.dropWhile_sublist _).length_le
    _ < l.length := by
        have : l.reverse.length = l.length := List.length_reverse l
        rw [ht] at this
        simp at this
        omega
  rw [h] at hlen
  omega

theorem trimEnd_ne_nil_of_mem {l : List Char} {c : Char} (hc : c ∈ l)
    (hws : isWsChar c = false) : trimEnd l ≠ [] := by
  intro h
  rw [trimEnd_eq_nil_iff] at h
  rw [h c hc] at hws
  simp at hws

/-! ### Words and whitespace collapsing -/

theorem wordsAux_nil (acc : List Char) :
    wordsAux [] acc = if acc.isEmpty then [] else [acc.reverse] := rfl

theorem wordsAux_cons (c : Char) (rest acc : List Char) :
    wordsAux (c :: rest) acc =
      if isWsChar c then
        (if acc.isEmpty then wordsAux rest []
         else acc.reverse :: wordsAux rest [])
      else wordsAux rest (c :: acc) := rfl

theorem intercalate_single (s x : List Char) : List.intercalate s [x] = x := by
  simp [List.intercalate, List.intersperse]

theorem wordsAux_mem {l acc : List Char} (hacc : ∀ c ∈ acc, isWsChar c = false)
    {w : List Char} (hw : w ∈ wordsAux l acc) :
    w ≠ [] ∧ ∀ c ∈ w, isWsChar c = false := by
  induction l generalizing acc with
  | nil =>
    rw [wordsAux_nil] at hw
    by_cases ha : acc.isEmpty
    · simp [ha] at hw
    · have ha' : acc.isEmpty = false := by simpa using ha
      simp [ha'] at hw
      subst hw
      refine ⟨by simpa [List.isEmpty_iff] using ha, ?_⟩
      intro c hc
      exact hacc c (List.mem_reverse.mp hc)
  | cons c r ih =>
    rw [wordsAux_cons] at hw
    by_cases hws : isWsChar c
    · rw [if_pos hws] at hw
      by_cases ha : acc.isEmpty
      · rw [if_pos ha] at hw
        exact ih (by simp) hw
      · rw [if_neg ha] at hw
        rcases List.mem_cons.mp hw with hw | hw
        · subst hw
          refine ⟨by simpa [List.isEmpty_iff] using ha, ?_⟩
          intro x hx
          exact hacc x (List.mem_reverse.mp hx)
        · exact ih (by simp) hw
    · rw [if_neg hws] at hw
      refine ih ?_ hw
      intro x hx
      rcases List.mem_cons.mp hx with hx | hx
      · subst hx; simpa using hws
      · exact hacc x hx

theorem wordsOf_mem {l w : List Char} (hw : w ∈ wordsOf l) :
    w ≠ [] ∧ ∀ c ∈ w, isWsChar c = false :=
  wordsAux_mem (by simp) hw

theorem wordsAux_all_non_ws {l : List Char} (h : ∀ c ∈ l, isWsChar c = false)
    (acc : List Char) :
    wordsAux l acc =
      if (acc.reverse ++ l).isEmpty then [] else [acc.reverse ++ l] := by
  induction l generalizing acc with
  | nil => rw [wordsAux_nil]; simp [List.isEmpty_iff]
  | cons c r ih =>
    have hc : isWsChar c = false := h c (by simp)
    rw [wordsAux_cons, hc]
    simp only [Bool.false_eq_true, if_false]
    rw [ih (fun x hx => h x (by simp [hx])) (c :: acc)]
    simp

theorem wordsAux_word_sep {w : List Char} (hw : ∀ c ∈ w, isWsChar c = false)
    (t acc : List Char) :
    wordsAux (w ++ ' ' :: t) acc =
      if (acc.reverse ++ w).isEmpty then wordsAux t []
      else (acc.reverse ++ w) :: wordsAux t [] := by
  induction w generalizing acc with
  | nil =>
    simp only [List.nil_append, List.append_nil]
    rw [wordsAux_cons]
    have hsp : isWsChar ' ' = true := by decide
    rw [hsp]
    simp only [if_true]
    by_cases ha : acc.isEmpty
    · have ha' : acc.reverse.isEmpty = true := by
        simp [List.isEmpty_iff] at ha ⊢
        simp [ha]
      simp [ha, ha']
    · have ha2 : acc.isEmpty = false := by simpa using ha
      have ha' : acc.reverse.isEmpty = false := by
        simp [List.isEmpty_iff] at ha2 ⊢
        simpa using ha2
      simp [ha2, ha']
  | cons c w' ih =>
    have hc : isWsChar c = false := hw c (by simp)
    rw [List.cons_append, wordsAux_cons, hc]
    simp only [Bool.false_eq_true, if_false]
    rw [ih (fun x hx => hw x (by simp [hx])) (c :: acc)]
    simp

theorem intercalate_cons₂ (s x y : List Char) (zs : List (List Char)) :
    List.intercalate s (x :: y :: zs) = x ++ s ++ List.intercalate s (y :: zs) := by
  simp [List.intercalate, List.intersperse]

theorem intercalate_ne_nil {s : List Char} {ws' : List (List Char)} {w : List Char}
    (hmem : w ∈ ws') (hw : w ≠ []) (hall : ∀ v ∈ ws', v ≠ []) :
    List.intercalate s ws' ≠ [] := by
  cases ws' with
  | nil => simp at hmem
  | cons v rest =>
    cases rest with
    | nil =>
      rw [intercalate_single]
      simp only [List.mem_singleton] at hmem
      subst hmem
      exact hw
    | cons v' rest' =>
      rw [intercalate_cons₂]
      intro hnil
      have hv : v ≠ [] := hall v (by simp)
      simp only [List.append_assoc, List.append_eq_nil] at hnil
      exact hv hnil.1

theorem wordsOf_intercalate {ws' : List (List Char)}
    (h : ∀ w ∈ ws', w ≠ [] ∧ ∀ c ∈ w, isWsChar c = false) :
    wordsOf (List.intercalate [' '] ws') = ws' := by
  induction ws' with
  | nil => rfl
  | cons w rest ih =>
    cases rest with
    | nil =>
      rw [intercalate_single]
      unfold wordsOf
      rw [wordsAux_all_non_ws (h w (by simp)).2 []]
      simp [(h w (by simp)).1, List.isEmpty_iff]
    | cons w' rest' =>
      rw [intercalate_cons₂]
      have hsh : w ++ [' '] ++ List.intercalate [' '] (w' :: rest') =
          w ++ ' ' :: List.intercalate [' '] (w' :: rest') := by simp
      rw [hsh]
      unfold wordsOf
      rw [wordsAux_word_sep (h w (by simp)).2 (List.intercalate [' '] (w' :: rest')) []]
      simp only [List.reverse_nil, List.nil_append]
      rw [if_neg (by simp [(h w (by simp)).1, List.isEmpty_iff])]
      have hrec := ih (by intro v hv; exact h v (by simp [hv]))
      unfold wordsOf at hrec
      rw [hrec]

theorem collapseWs_idem (l : List Char) :
    collapseWs (collapseWs l) = collapseWs l := by
  unfold collapseWs
  rw [wordsOf_intercalate (fun w hw => wordsOf_mem hw)]

theorem trimEnd_intercalate {ws' : List (List Char)}
    (h : ∀ w ∈ ws', w ≠ [] ∧ ∀ c ∈ w, isWsChar c = false) :
    trimEnd (List.intercalate [' '] ws') = List.intercalate [' '] ws' := by
  induction ws' with
  | nil => rfl
  | cons w rest ih =>
    cases rest with
    | nil =>
      rw [intercalate_single]
      exact trimEnd_all (h w (by simp)).2
    | cons w' rest' =>
      rw [intercalate_cons₂]
      have ht : trimEnd (List.intercalate [' '] (w' :: rest')) =
          List.intercalate [' '] (w' :: rest') :=
        ih (by intro v hv; exact h v (by simp [hv]))
      have htne : List.intercalate [' '] (w' :: rest') ≠ [] :=
        intercalate_ne_nil (by simp) (h w' (by simp)).1
          (by intro v hv; exact (h v (by simp [hv])).1)
      have hsep : trimEnd (' ' :: List.intercalate [' '] (w' :: rest')) =
          ' ' :: List.intercalate [' '] (w' :: rest') := by
        have := trimEnd_append [' '] (List.intercalate [' '] (w' :: rest'))
        rw [ht, if_neg htne] at this
        simpa using this
      rw [List.append_assoc]
      simp only [List.singleton_append]
      rw [trimEnd_append w (' ' :: List.intercalate [' '] (w' :: rest')), hsep,
        if_neg (by simp)]

theorem trimEnd_collapseWs (l : List Char) :
    trimEnd (collapseWs l) = collapseWs l :=
  trimEnd_intercalate (fun w hw => wordsOf_mem hw)

theorem mem_intercalate_ws {ws' : List (List Char)}
    (h : ∀ w ∈ ws', ∀ c ∈ w, isWsChar c = false) {c : Char}
    (hc : c ∈ List.intercalate [' '] ws') (hws : isWsChar c = true) : c = ' ' := by
  induction ws' with
  | nil => simp [List.intercalate] at hc
  | cons w rest ih =>
    cases rest with
    | nil =>
      rw [intercalate_single] at hc
      rw [h w (by simp) c hc] at hws
      simp at hws
    | cons w' rest' =>
      rw [intercalate_cons₂] at hc
      simp only [List.append_assoc, List.mem_append, List.singleton_append,
        List.mem_cons] at hc
      rcases hc with hc | hc | hc
      · rw [h w (by simp) c hc] at hws; simp at hws
      · exact hc
      · exact ih (by intro v hv; exact h v (by simp [hv])) hc

theorem mem_collapseWs_ws {l : List Char} {c : Char} (hc : c ∈ collapseWs l)
    (hws : isWsChar c = true) : c = ' ' :=
  mem_intercalate_ws (fun w hw => (wordsOf_mem hw).2) hc hws

theorem collapseWs_all_non_ws {l : List Char} (hne : l ≠ [])
    (h : ∀ c ∈ l, isWsChar c = false) : collapseWs l = l := by
  unfold collapseWs wordsOf
  rw [wordsAux_all_non_ws h []]
  simp only [List.reverse_nil, List.nil_append]
  rw [if_neg (by simpa [List.isEmpty_iff] using hne)]
  exact intercalate_single _ _

/-! ### Line splitting -/

theorem not_mem_splitOn {a : Char} {xs l : List Char} (h : l ∈ xs.splitOn a) :
    a ∉ l := by
  rw [List.splitOn] at h
  induction xs generalizing l with
  | nil => simp at h; simp [h]
  | cons x xs ih =>
    rw [List.splitOnP_cons] at h
    by_cases hx : (x == a) = true
    · rw [if_pos hx] at h
      rcases List.mem_cons.mp h with h | h
      · simp [h]
      · exact ih h
    · rw [if_neg hx] at h
      rcases hs : xs.splitOnP (· == a) with _ | ⟨hd, tl⟩
      · exact absurd hs (List.splitOnP_ne_nil _ _)
      · rw [hs] at h
        simp only [List.modifyHead, List.mem_cons] at h
        rcases h with h | h
        · subst h
          intro hmem
          rcases List.mem_cons.mp hmem with hmem | hmem
          · exact hx (by simp [hmem])
          · exact ih (l := hd) (by rw [hs]; simp) hmem
        · exact ih (l := l) (by rw [hs]; exact List.mem_cons_of_mem _ h)

theorem mem_stripCRs {ls : List (List Char)} {l : List Char}
    (h : l ∈ stripCRs ls) : ∃ s ∈ ls, l = s ∨ l = s.dropLast := by
  induction ls with
  | nil => simp [stripCRs] at h
  | cons s rest ih =>
    cases rest with
    | nil =>
      simp only [stripCRs, List.mem_singleton] at h
      exact ⟨s, by simp, Or.inl h⟩
    | cons s' rest' =>
      rw [show stripCRs (s :: s' :: rest') = dropTrailCR s :: stripCRs (s' :: rest')
        from rfl] at h
      rcases List.mem_cons.mp h with h | h
      · refine ⟨s, by simp, ?_⟩
        unfold dropTrailCR at h
        split at h
        · exact Or.inr h
        · exact Or.inl h
      · obtain ⟨t, ht, hl⟩ := ih h
        exact ⟨t, by simp [ht], hl⟩

theorem splitLines_no_newline {x l : List Char} (h : l ∈ splitLines x) :
    '\n' ∉ l := by
  unfold splitLines at h
  obtain ⟨s, hs, hl⟩ := mem_stripCRs h
  have hns : '\n' ∉ s := not_mem_splitOn hs
  rcases hl with hl | hl
  · subst hl; exact hns
  · subst hl
    intro hmem
    exact hns ((List.dropLast_sublist s).mem hmem)

theorem stripCRs_eq_self {ls : List (List Char)}
    (h : ∀ l ∈ ls, l.getLast? ≠ some '\r') : stripCRs ls = ls := by
  induction ls with
  | nil => rfl
  | cons s rest ih =>
    cases rest with
    | nil => rfl
    | cons s' rest' =>
      rw [show stripCRs (s :: s' :: rest') = dropTrailCR s :: stripCRs (s' :: rest')
        from rfl]
      rw [ih (fun l hl => h l (by simp [hl]))]
      unfold dropTrailCR
      rw [if_neg (h s (by simp))]

theorem splitLines_joinLines {ls : List (List Char)} (hne : ls ≠ [])
    (hnl : ∀ l ∈ ls, '\n' ∉ l) (hcr : ∀ l ∈ ls, l.getLast? ≠ some '\r') :
    splitLines (joinLines ls) = ls := by
  unfold splitLines joinLines
  rw [show List.intercalate ['\n'] ls = ['\n'].intercalate ls from rfl]
  rw [List.splitOn_intercalate ls '\n' hnl hne]
  exact stripCRs_eq_self hcr

/-! ### Structure of heading lines -/

theorem headingMark_mem {l : List Char} (hh : isHeadingLine l = true) :
    '#' ∈ l := by
  unfold isHeadingLine at hh
  simp only [Bool.and_eq_true, decide_eq_true_eq] at hh
  obtain ⟨⟨h1, _⟩, _⟩ := hh
  rcases hc : (l.dropWhile isWsChar).takeWhile (fun c => c == '#') with _ | ⟨a, t⟩
  · rw [hc] at h1; simp at h1
  · have hcq : (a == '#') = true :=
      List.mem_takeWhile_imp (p := fun y => y == '#') (l := l.dropWhile isWsChar)
        (by rw [hc]; simp)
    have hcmem : a ∈ l.dropWhile isWsChar :=
      (List.takeWhile_sublist _).mem (by rw [hc]; simp)
    have hal : a ∈ l := (List.dropWhile_sublist _).mem hcmem
    rwa [show a = '#' from by simpa using hcq] at hal

theorem heading_trimEnd_ne_nil {l : List Char} (hh : isHeadingLine l = true) :
    trimEnd l ≠ [] :=
  trimEnd_ne_nil_of_mem (headingMark_mem hh) (by decide)

theorem takeWhile_append_of_all {p : Char → Bool} {a : List Char}
    (h : ∀ c ∈ a, p c = true) (b : List Char) :
    (a ++ b).takeWhile p = a ++ b.takeWhile p := by
  induction a with
  | nil => simp
  | cons c r ih =>
    simp only [List.cons_append, List.takeWhile_cons, h c (by simp), if_true]
    rw [ih (fun x hx => h x (by simp [hx]))]

theorem dropWhile_append_of_all {p : Char → Bool} {a : List Char}
    (h : ∀ c ∈ a, p c = true) (b : List Char) :
    (a ++ b).dropWhile p = b.dropWhile p := by
  induction a with
  | nil => simp
  | cons c r ih =>
    simp only [List.cons_append, List.dropWhile_cons, h c (by simp), if_true]
    exact ih (fun x hx => h x (by simp [hx]))

theorem isHeadingLine_intro {hs t : List Char} (hall : ∀ a ∈ hs, a = '#')
    (hne : hs ≠ []) (hlen : hs.length ≤ 6) {w : Char} {r : List Char}
    (ht : t = w :: r) (hw : isWsChar w = true) :
    isHeadingLine (hs ++ t) = true := by
  subst ht
  have hq : ∀ a ∈ hs, (a == '#') = true := by
    intro a ha; simp [hall a ha]
  have hwq : (w == '#') ≠ true := by
    intro hq'
    rw [show w = '#' from by simpa using hq'] at hw
    exact absurd hw (by decide)
  have hdw : (hs ++ w :: r).dropWhile isWsChar = hs ++ w :: r := by
    rcases hs with _ | ⟨c0, hs'⟩
    · exact absurd rfl hne
    · have hc0 : c0 = '#' := hall c0 (by simp)
      subst hc0
      simp only [List.cons_append, List.dropWhile_cons]
      rw [if_neg (by decide)]
  have htw : (hs ++ w :: r).takeWhile (fun c => c == '#') = hs := by
    rw [takeWhile_append_of_all hq]
    simp only [List.takeWhile_cons]
    rw [if_neg hwq, List.append_nil]
  have hdq : (hs ++ w :: r).dropWhile (fun c => c == '#') = w :: r := by
    rw [dropWhile_append_of_all hq]
    simp only [List.dropWhile_cons]
    rw [if_neg hwq]
  simp only [isHeadingLine]
  rw [hdw, htw, hdq]
  simp only [Bool.and_eq_true, decide_eq_true_eq]
  refine ⟨⟨?_, hlen⟩, by simpa using hw⟩
  rcases hs with _ | _
  · exact absurd rfl hne
  · simp

/-- A heading line with no leading whitespace that loses its heading
status under `trimEnd` consists of its `'#'` marks only, once
end-trimmed: the text after the marker run is pure whitespace. -/
theorem heading_degenerate {l : List Char} (hh : isHeadingLine l = true)
    (hlead : l.dropWhile isWsChar = l)
    (hnth : isHeadingLine (trimEnd l) = false) :
    trimEnd l ≠ [] ∧ ∀ c ∈ trimEnd l, isWsChar c = false := by
  unfold isHeadingLine at hh
  rw [hlead] at hh
  simp only [Bool.and_eq_true, decide_eq_true_eq] at hh
  obtain ⟨⟨h1, h6⟩, hmatch⟩ := hh
  have hsplit : l.takeWhile (fun c => c == '#') ++ l.dropWhile (fun c => c == '#') = l :=
    List.takeWhile_append_dropWhile _ _
  have hhsall : ∀ a ∈ l.takeWhile (fun c => c == '#'), (a == '#') = true :=
    fun a ha => List.mem_takeWhile_imp (p := fun y => y == '#') (l := l) ha
  have hhsne : l.takeWhile (fun c => c == '#') ≠ [] := by
    intro hnil
    rw [hnil] at h1
    simp at h1
  obtain ⟨w, r, hwr⟩ : ∃ w r, l.dropWhile (fun c => c == '#') = w :: r := by
    rcases hd : l.dropWhile (fun c => c == '#') with _ | ⟨w, r⟩
    · rw [hd] at hmatch; simp at hmatch
    · exact ⟨w, r, rfl⟩
  have hw : isWsChar w = true := by rw [hwr] at hmatch; simpa using hmatch
  by_cases hwr' : trimEnd (l.dropWhile (fun c => c == '#')) = []
  · -- the text after the marker run is pure whitespace
    have heq : trimEnd l = trimEnd (l.takeWhile (fun c => c == '#')) := by
      conv_lhs => rw [← hsplit]
      rw [trimEnd_append, if_pos hwr']
    have hall : ∀ a ∈ l.takeWhile (fun c => c == '#'), isWsChar a = false := by
      intro a ha
      have : a = '#' := by simpa using hhsall a ha
      rw [this]; decide
    rw [heq, trimEnd_all hall]
    exact ⟨hhsne, hall⟩
  · -- otherwise the end-trimmed line would still be a heading
    exfalso
    have hwcons : trimEnd (l.dropWhile (fun c => c == '#')) = w :: trimEnd r := by
      rw [hwr] at hwr' ⊢
      rcases hr : trimEnd r with _ | ⟨c', r'⟩
      · have htw : trimEnd [w] = [] := by
          rw [trimEnd_eq_nil_iff]
          intro a ha
          simp only [List.mem_singleton] at ha
          rw [ha]; exact hw
        have h2 := trimEnd_append [w] r
        rw [hr, if_pos rfl, htw] at h2
        exact absurd (by simpa using h2) hwr'
      · have h2 := trimEnd_append [w] r
        rw [hr, if_neg (by simp)] at h2
        simpa [hr] using h2
    have htl : trimEnd l = l.takeWhile (fun c => c == '#') ++ (w :: trimEnd r) := by
      conv_lhs => rw [← hsplit]
      rw [trimEnd_append, if_neg hwr', hwcons]
    have hht : isHeadingLine (trimEnd l) = true := by
      rw [htl]
      refine isHeadingLine_intro ?_ hhsne h6 rfl hw
      intro a ha
      simpa using hhsall a ha
    rw [hht] at hnth
    simp at hnth

/-! ### Stability of processed lines and the fixpoint theorem -/

theorem normLine_stable {l l' : List Char}
    (hgood : isHeadingLine l = true →
      isHeadingLine (trimEnd l) = true ∨ l.dropWhile isWsChar = l)
    (hmem : l' ∈ normLine l) : normLine l' = [l'] := by
  simp only [normLine] at hmem
  by_cases hh : isHeadingLine l = true
  · rw [if_pos hh] at hmem
    simp only [List.mem_singleton] at hmem
    subst hmem
    by_cases hth : isHeadingLine (trimEnd l) = true
    · simp only [normLine]
      rw [if_pos hth, trimEnd_idem]
    · rcases hgood hh with hth' | hlead
      · exact absurd hth' hth
      · obtain ⟨hne, hall⟩ :=
          heading_degenerate hh hlead (by simpa using hth)
        simp only [normLine]
        rw [if_neg hth, collapseWs_all_non_ws hne hall,
          if_neg (by simpa [List.isEmpty_iff] using hne)]
  · rw [if_neg hh] at hmem
    by_cases hc : (collapseWs l).isEmpty
    · simp [hc] at hmem
    · rw [if_neg hc] at hmem
      simp only [List.mem_singleton] at hmem
      subst hmem
      simp only [normLine]
      by_cases hh' : isHeadingLine (collapseWs l) = true
      · rw [if_pos hh', trimEnd_collapseWs]
      · rw [if_neg hh', collapseWs_idem, if_neg hc]

theorem normLine_out {l l' : List Char} (hmem : l' ∈ normLine l)
    (hnl : '\n' ∉ l) :
    l' ≠ [] ∧ '\n' ∉ l' ∧ l'.getLast? ≠ some '\r' := by
  simp only [normLine] at hmem
  by_cases hh : isHeadingLine l = true
  · rw [if_pos hh] at hmem
    simp only [List.mem_singleton] at hmem
    subst hmem
    refine ⟨heading_trimEnd_ne_nil hh, ?_, ?_⟩
    · intro hin
      exact hnl (mem_trimEnd hin)
    · intro hlast
      have := getLast_not_ws_of_trimEnd_eq (trimEnd_idem l) hlast
      exact absurd this (by decide)
  · rw [if_neg hh] at hmem
    by_cases hc : (collapseWs l).isEmpty
    · simp [hc] at hmem
    · rw [if_neg hc] at hmem
      simp only [List.mem_singleton] at hmem
      subst hmem
      refine ⟨by simpa [List.isEmpty_iff] using hc, ?_, ?_⟩
      · intro hin
        have := mem_collapseWs_ws hin (by decide)
        simp at this
      · intro hlast
        have := getLast_not_ws_of_trimEnd_eq (trimEnd_collapseWs l) hlast
        exact absurd this (by decide)

theorem normalize_fixpoint (x : List Char)
    (hgood : ∀ l ∈ splitLines x, isHeadingLine l = true →
      isHeadingLine (trimEnd l) = true ∨ l.dropWhile isWsChar = l) :
    normalize (normalize x) = normalize x := by
  by_cases hx : x.isEmpty
  · have h0 : normalize x = [] := by rw [normalize, if_pos hx]
    rw [h0]
    simp [normalize]
  · have hnx : normalize x = joinLines ((splitLines x).flatMap normLine) := by
      rw [normalize, if_neg hx]
    by_cases hout0 : (splitLines x).flatMap normLine = []
    · rw [hnx, hout0]
      simp [normalize, joinLines, List.intercalate]
    · have hprops : ∀ l' ∈ (splitLines x).flatMap normLine,
          l' ≠ [] ∧ '\n' ∉ l' ∧ l'.getLast? ≠ some '\r' := by
        intro l' h
        obtain ⟨l, hl, hl'⟩ := List.mem_flatMap.mp h
        exact normLine_out hl' (splitLines_no_newline hl)
      have hstable : ∀ l' ∈ (splitLines x).flatMap normLine, normLine l' = [l'] := by
        intro l' h
        obtain ⟨l, hl, hl'⟩ := List.mem_flatMap.mp h
        exact normLine_stable (hgood l hl) hl'
      have hjoin_ne : joinLines ((splitLines x).flatMap normLine) ≠ [] := by
        rcases ho : (splitLines x).flatMap normLine with _ | ⟨l0, rest⟩
        · exact absurd ho hout0
        · exact intercalate_ne_nil (by simp) ((hprops l0 (by rw [ho]; simp)).1)
            (fun v hv => (hprops v (by rw [ho]; simp [hv])).1)
      have hsplit : splitLines (joinLines ((splitLines x).flatMap normLine)) =
          (splitLines x).flatMap normLine :=
        splitLines_joinLines hout0 (fun l hl => (hprops l hl).2.1)
          (fun l hl => (hprops l hl).2.2)
      rw [hnx, normalize, if_neg (by simpa [List.isEmpty_iff] using hjoin_ne), hsplit]
      have hid : ((splitLines x).flatMap normLine).flatMap normLine =
          (splitLines x).flatMap normLine := by
        rw [List.flatMap_congr hstable]
        simp
      rw [hid]

end Scraper

namespace Scraper

/-! ## Claim C7: idempotent collection ensure -/

/-- C7: `ensureCollection` issues its creation (PUT) request iff the
existence check (GET) returns 404; on a 200 it returns with zero
creation requests — so a second call against the store after a
successful creation performs only the existence check — and any other
GET status is an error that is fatal to the pipeline. -/
theorem ensureCollection_idempotent :
    (∀ g p : Nat, (ensureCollection g p).putCalls = 1 ↔ g = 404) ∧
    (∀ p : Nat, ensureCollection 200 p = ⟨0, true⟩) ∧
    (∀ g p : Nat, g ≠ 200 → g ≠ 404 → ensureCollection g p = ⟨0, false⟩) ∧
    (∀ p p' : Nat, resOk p = true →
      (ensureOnStore false p).1.putCalls = 1 ∧ (ensureOnStore false p).2 = true ∧
      (ensureOnStore (ensureOnStore false p).2 p').1 = ⟨0, true⟩) := by
  refine ⟨?_, ?_, ?_, ?_⟩
  · intro g p
    by_cases h1 : g = 200
    · subst h1; simp [ensureCollection]
    · by_cases h2 : g = 404
      · subst h2; simp [ensureCollection]
      · simp [ensureCollection, h1, h2]
  · intro p; simp [ensureCollection]
  · intro g p h1 h2; simp [ensureCollection, h1, h2]
  · intro p p' hp
    simp [ensureOnStore, ensureCollection, qdrantGetStatus, hp]

/-- Witness: GET 500 is fatal with no creation; after a successful
first ensure, the second call performs no creation. -/
theorem ensureCollection_idempotent_witness :
    ensureCollection 500 200 = ⟨0, false⟩ ∧
    (ensureOnStore (ensureOnStore false 200).2 201).1 = ⟨0, true⟩ :=
  ⟨ensureCollection_idempotent.2.2.1 500 200 (by decide) (by decide),
   (ensureCollection_idempotent.2.2.2 200 201 (by decide)).2.2⟩

/-! ## Claim C3: the backoff computation -/

/-- C3 counterexample: with no `Retry-After` but a rate-limit
remaining header reading `"0"` and a reset timestamp of 100, the
website fetcher's `_computeBackoffMs` at attempt 1 computes the
exponential 800 ms, not the claim's priority-(b) value
`(reset − now)×1000 = 100000` ms (at `now = 0`): the code has no
rate-limit-reset branch. -/
theorem computeBackoffMs_cex :
    computeBackoffMs 1 [(lc "x-ratelimit-remaining", lc "0"),
        (lc "x-ratelimit-reset", lc "100")] ≠
      c3SpecDelay 1 [(lc "x-ratelimit-remaining", lc "0"),
        (lc "x-ratelimit-reset", lc "100")] 0 := by decide

/-- C3 (amended): the website fetcher's backoff delay depends only on
the `retry-after` header — the spec's rate-limit-reset branch (b) is
absent: (a) a parsing `retry-after` value gives seconds×1000 ms
clamped to [1000, 120000]; otherwise (c) exponential backoff with
`base = 500×2^(attempt−1)` and jitter
`trunc(base×0.3) × ((attempt mod 5) + 1)`, clamped to [500, 15000]
(attempts 1..maxRetries+1 = 4 are the ones the retry loop computes);
headers `retry-after: "2"` give exactly 2000 ms. -/
theorem computeBackoffMs_amended :
    (∀ (a : Nat) (h1 h2 : List (List Char × List Char)),
      headerLookup h1 (lc "retry-after") = headerLookup h2 (lc "retry-after") →
      computeBackoffMs a h1 = computeBackoffMs a h2) ∧
    (∀ (a : Nat) (h : List (List Char × List Char)) (s : List Char) (k : Int),
      headerLookup h (lc "retry-after") = some s → dartIntTryParse s = some k →
      computeBackoffMs a h = intClamp (k * 1000) 1000 120000) ∧
    (∀ (a : Nat) (h : List (List Char × List Char)),
      1 ≤ a → a ≤ 4 →
      (headerLookup h (lc "retry-after")).bind dartIntTryParse = none →
      computeBackoffMs a h =
        intClamp (500 * 2 ^ (a - 1) +
          150 * 2 ^ (a - 1) * (((a % 5 : Nat) : Int) + 1)) 500 15000) ∧
    computeBackoffMs 1 [(lc "retry-after", lc "2")] = 2000 := by
  refine ⟨?_, ?_, ?_, by decide⟩
  · intro a h1 h2 he
    unfold computeBackoffMs
    rw [he]
  · intro a h s k hs hk
    unfold computeBackoffMs
    simp only [hs, hk]
  · intro a h ha1 ha4 hb
    unfold computeBackoffMs
    rcases hl : headerLookup h (lc "retry-after") with _ | ra
    · interval_cases a <;> decide
    · rw [hl] at hb
      simp only [Option.some_bind] at hb
      simp only [hb]
      interval_cases a <;> decide

/-- Witness: at attempt 2 with no headers the exponential branch gives
the amended formula's value. -/
theorem computeBackoffMs_amended_witness :
    computeBackoffMs 2 [] =
      intClamp (500 * 2 ^ (2 - 1) +
        150 * 2 ^ (2 - 1) * (((2 % 5 : Nat) : Int) + 1)) 500 15000 :=
  computeBackoffMs_amended.2.2.1 2 [] (by decide) (by decide) rfl

/-! ## Claim C10: idempotence of `normalize` -/

/-- C10 counterexample: `normalize` is not idempotent.  On `" # "`
(a heading-marker line with leading whitespace and no text) the first
pass keeps the line as a heading, trimmed at the end only (`" #"`),
but that line no longer matches the heading test, so a second pass
collapses it to `"#"`. -/
theorem normalize_not_idempotent :
    normalize (normalize (lc " # ")) ≠ normalize (lc " # ") := by decide

/-- C10 (amended): `normalize` is idempotent on every input in which
each markdown-heading line either still passes the heading test after
its trailing whitespace is removed (i.e. has real text after the
marker) or has no leading whitespace; the counterexample `" # "`
violates this on exactly one line. -/
theorem normalize_idem_amended (x : List Char)
    (hgood : ∀ l ∈ splitLines x, isHeadingLine l = true →
      isHeadingLine (trimEnd l) = true ∨ l.dropWhile isWsChar = l) :
    normalize (normalize x) = normalize x :=
  normalize_fixpoint x hgood

/-- Witness: a text with a heading, a degenerate unindented heading
marker and a collapsible line. -/
theorem normalize_idem_amended_witness :
    normalize (normalize (lc "# Title\n#  \nsome   text. \n\nmore")) =
      normalize (lc "# Title\n#  \nsome   text. \n\nmore") :=
  normalize_idem_amended (lc "# Title\n#  \nsome   text. \n\nmore") (by decide)

end Scraper

namespace Scraper

/-! ## Claim C2: the robots allow decision -/

theorem allowStep_ge (norm : List Char) (b : Int) (a : List Char) :
    b ≤ allowStep norm b a := by
  unfold allowStep
  split_ifs <;> omega

theorem disallowStep_ge (norm : List Char) (b : Int) (d : List Char) :
    b ≤ disallowStep norm b d := by
  unfold disallowStep
  split_ifs <;> omega

theorem allowFold_ge (norm : List Char) (l : List (List Char)) (b : Int) :
    b ≤ l.foldl (allowStep norm) b := by
  induction l generalizing b with
  | nil => simp
  | cons a rest ih =>
    simp only [List.foldl_cons]
    exact le_trans (allowStep_ge norm b a) (ih _)

theorem disallowFold_ge (norm : List Char) (l : List (List Char)) (b : Int) :
    b ≤ l.foldl (disallowStep norm) b := by
  induction l generalizing b with
  | nil => simp
  | cons d rest ih =>
    simp only [List.foldl_cons]
    exact le_trans (disallowStep_ge norm b d) (ih _)

theorem allowFold_matches (norm : List Char) {l : List (List Char)} {a : List Char}
    (ha : a ∈ l) (hm : a.isPrefixOf norm = true) (b : Int) :
    (a.length : Int) ≤ l.foldl (allowStep norm) b := by
  induction l generalizing b with
  | nil => simp at ha
  | cons x rest ih =>
    simp only [List.foldl_cons]
    rcases List.mem_cons.mp ha with h | h
    · subst h
      refine le_trans ?_ (allowFold_ge norm rest _)
      unfold allowStep
      by_cases he : a.isEmpty
      · have ha0 : a = [] := by simpa [List.isEmpty_iff] using he
        subst ha0
        simp only [List.isEmpty_nil, if_true, List.length_nil, Nat.cast_zero]
        split_ifs <;> omega
      · rw [if_neg (by simpa using he), if_pos hm]
        split_ifs <;> omega
    · exact ih h _

theorem disallowFold_matches (norm : List Char) {l : List (List Char)} {d : List Char}
    (hd : d ∈ l) (hne : d ≠ []) (hm : d.isPrefixOf norm = true) (b : Int) :
    (d.length : Int) ≤ l.foldl (disallowStep norm) b := by
  induction l generalizing b with
  | nil => simp at hd
  | cons x rest ih =>
    simp only [List.foldl_cons]
    rcases List.mem_cons.mp hd with h | h
    · subst h
      refine le_trans ?_ (disallowFold_ge norm rest _)
      unfold disallowStep
      rw [if_neg (by simpa [List.isEmpty_iff] using hne), if_pos hm]
      split_ifs <;> omega
    · exact ih h _

theorem allowFold_cases (norm : List Char) (l : List (List Char)) (b : Int) :
    l.foldl (allowStep norm) b = b ∨
      ∃ a ∈ l, a.isPrefixOf norm = true ∧
        l.foldl (allowStep norm) b = (a.length : Int) := by
  induction l generalizing b with
  | nil => left; rfl
  | cons x rest ih =>
    simp only [List.foldl_cons]
    rcases ih (allowStep norm b x) with h | ⟨a, ha, hm, hv⟩
    · rw [h]
      unfold allowStep
      by_cases he : x.isEmpty
      · have hx0 : x = [] := by simpa [List.isEmpty_iff] using he
        subst hx0
        simp only [List.isEmpty_nil, if_true]
        by_cases hb : b < 0
        · right
          exact ⟨[], by simp, by simp [List.isPrefixOf], by simp [hb]⟩
        · left; simp [hb]
      · rw [if_neg (by simpa using he)]
        by_cases hm : x.isPrefixOf norm
        · rw [if_pos hm]
          by_cases hgt : (x.length : Int) > b
          · right
            exact ⟨x, by simp, hm, by simp [hgt]⟩
          · left; simp [hgt]
        · rw [if_neg hm]; left; rfl
    · right
      exact ⟨a, by simp [ha], hm, hv⟩

theorem disallowFold_cases (norm : List Char) (l : List (List Char)) (b : Int) :
    l.foldl (disallowStep norm) b = b ∨
      ∃ d ∈ l, d ≠ [] ∧ d.isPrefixOf norm = true ∧
        l.foldl (disallowStep norm) b = (d.length : Int) := by
  induction l generalizing b with
  | nil => left; rfl
  | cons x rest ih =>
    simp only [List.foldl_cons]
    rcases ih (disallowStep norm b x) with h | ⟨d, hd, hne, hm, hv⟩
    · rw [h]
      unfold disallowStep
      by_cases he : x.isEmpty
      · rw [if_pos he]; left; rfl
      · rw [if_neg he]
        by_cases hm : x.isPrefixOf norm
        · rw [if_pos hm]
          by_cases hgt : (x.length : Int) > b
          · right
            exact ⟨x, by simp, by simpa [List.isEmpty_iff] using he, hm, by simp [hgt]⟩
          · left; simp [hgt]
        · rw [if_neg hm]; left; rfl
    · right
      exact ⟨d, by simp [hd], hne, hm, hv⟩

theorem isAllowed_eq_folds (r : RobotsRules) (path : List Char) :
    isAllowed r path = true ↔
      (r.disallow.foldl (disallowStep (if path.isEmpty then lc "/" else path)) (-1) < 0 ∧
       r.allow.foldl (allowStep (if path.isEmpty then lc "/" else path)) (-1) < 0) ∨
      r.disallow.foldl (disallowStep (if path.isEmpty then lc "/" else path)) (-1) ≤
        r.allow.foldl (allowStep (if path.isEmpty then lc "/" else path)) (-1) := by
  unfold isAllowed
  generalize (if path.isEmpty then lc "/" else path) = norm
  dsimp only
  split_ifs with h1 h2
  · simp only [true_iff]
    left
    simpa using h1
  · simp only [true_iff]
    right
    simpa [ge_iff_le] using h2
  · simp only [Bool.false_eq_true, false_iff]
    intro h
    rcases h with ⟨hd, ha⟩ | h
    · exact h1 (by simp_all)
    · exact h2 (by simpa [ge_iff_le] using h)

/-- C2: the robots allow decision.  A path is allowed iff no
non-empty (wildcard-stripped, slash-ensured) Disallow rule is a
prefix of the request path, or some matching Allow rule is at least
as long as every matching Disallow rule (ties favor Allow; an empty
Allow rule matches everything with length 0); and on the policy
`User-agent: * / Disallow: /private / Allow: /private/public` the
path `/private/public/x` is allowed while `/private/secret` is
disallowed. -/
theorem isAllowed_correct :
    (∀ (r : RobotsRules) (path : List Char),
      isAllowed r path = true ↔
        ((∀ d ∈ r.disallow, d ≠ [] →
            d.isPrefixOf (if path.isEmpty then lc "/" else path) = false) ∨
         (∃ a ∈ r.allow, a.isPrefixOf (if path.isEmpty then lc "/" else path) = true ∧
            ∀ d ∈ r.disallow, d ≠ [] →
              d.isPrefixOf (if path.isEmpty then lc "/" else path) = true →
              d.length ≤ a.length))) ∧
    isAllowed (robotsParse
        (lc "User-agent: *\nDisallow: /private\nAllow: /private/public")
        (lc "TestBot")) (lc "/private/public/x") = true ∧
    isAllowed (robotsParse
        (lc "User-agent: *\nDisallow: /private\nAllow: /private/public")
        (lc "TestBot")) (lc "/private/secret") = false := by
  refine ⟨?_, by decide, by decide⟩
  intro r path
  rw [isAllowed_eq_folds]
  constructor
  · intro h
    rcases disallowFold_cases (if path.isEmpty then lc "/" else path) r.disallow (-1) with
      hD | ⟨d0, hd0, hd0ne, hd0m, hDv⟩
    · left
      intro d hd hdne
      by_contra hm
      simp only [Bool.not_eq_false] at hm
      have := disallowFold_matches _ hd hdne hm (-1)
      rw [hD] at this
      omega
    · rcases h with ⟨hd, _⟩ | h
      · rw [hDv] at hd; omega
      · rcases allowFold_cases (if path.isEmpty then lc "/" else path) r.allow (-1) with
          hA | ⟨a0, ha0, ha0m, hAv⟩
        · rw [hA, hDv] at h
          omega
        · right
          refine ⟨a0, ha0, ha0m, ?_⟩
          intro d hd hdne hdm
          have hdle := disallowFold_matches _ hd hdne hdm (-1)
          rw [hAv] at h
          omega
  · intro h
    rcases h with hnone | ⟨a, ha, ham, hdom⟩
    · rcases disallowFold_cases (if path.isEmpty then lc "/" else path) r.disallow (-1) with
        hD | ⟨d0, hd0, hd0ne, hd0m, hDv⟩
      · right
        rw [hD]
        exact allowFold_ge _ _ _
      · rw [hnone d0 hd0 hd0ne] at hd0m
        simp at hd0m
    · have hAa := allowFold_matches _ ha ham (-1)
      rcases disallowFold_cases (if path.isEmpty then lc "/" else path) r.disallow (-1) with
        hD | ⟨d0, hd0, hd0ne, hd0m, hDv⟩
      · right
        rw [hD]
        omega
      · right
        rw [hDv]
        have := hdom d0 hd0 hd0ne hd0m
        omega

end Scraper

namespace Scraper

/-! ## Claim C6: frontier filtering scenario -/

/-- C6: crawling seed `https://a.test/index.html` with maximum depth 1
(domain restriction: the crawler's same-origin rule, which for this
scenario coincides with allowedDomains = ["a.test"]): of the seed
page's links, exactly `https://a.test/b` is enqueued, at depth 1 —
the cross-origin, fragment-only and `mailto:` links are not — and the
links of `https://a.test/b` are not expanded because its depth (1) is
not less than the maximum depth (1): `https://a.test/d` is neither
enqueued nor visited. -/
theorem crawlDocs_frontier_scenario :
    (crawlDocs 10 c6Pages [lc "https://a.test/index.html"] 1 100).enqueueLog =
      [(lc "https://a.test/index.html", 0), (lc "https://a.test/b", 1)] ∧
    (crawlDocs 10 c6Pages [lc "https://a.test/index.html"] 1 100).visited =
      [lc "https://a.test/index.html", lc "https://a.test/b"] ∧
    (lc "https://a.test/d") ∉
      (crawlDocs 10 c6Pages [lc "https://a.test/index.html"] 1 100).visited := by
  refine ⟨by decide, by decide, by decide⟩

/-! ## Claim C1: chunking termination -/

/-- C1 (failing-input evidence): the chunking loop does not terminate
on `"Aaaa. Bb."` with targetTokens 1 and overlapTokens 1.  The first
chunk is the single sentence `"Aaaa."` (j = i + 1) whose estimated
tokens (2) already cover the overlap budget, so the backward scan
consumes exactly that one sentence and the next start index is
`max(0, j - max(1, 1)) = i` again: the start index never advances and
the loop re-emits the same chunk forever.  Formally: the loop fails to
finish for every fuel bound. -/
theorem chunkTextToRag_diverges :
    ∀ fuel : Nat,
      chunkTextToRag fuel (lc "Aaaa. Bb.") (lc "doc") (lc "u") 1 1 = none := by
  have key : ∀ (fuel ord : Nat) (acc : List RagChunk),
      chunkLoop [lc "Aaaa.", lc "Bb."] (lc "doc") (lc "u") 1 1 fuel 0 ord acc = none := by
    intro fuel
    induction fuel with
    | zero => intro ord acc; rfl
    | succ n ih =>
      intro ord acc
      have hj : chunkEnd [lc "Aaaa.", lc "Bb."] 1 0 = 1 := by decide
      have hns : nextStart [lc "Aaaa.", lc "Bb."] 1 1 = 0 := by decide
      simp only [chunkLoop, hj, hns]
      norm_num
      exact ih _ _
  intro fuel
  have hsent : chunkSentenceList (normalize (lc "Aaaa. Bb.")) =
      [lc "Aaaa.", lc "Bb."] := by decide
  have hne : (normalize (lc "Aaaa. Bb.")).isEmpty = false := by decide
  unfold chunkTextToRag
  dsimp only
  rw [hne]
  simp only [Bool.false_eq_true, if_false, hsent]
  exact key fuel 0 []

end Scraper

namespace Scraper

/-! ## Claims C8 and C9: the embedding/index pipeline -/

theorem runFile_md_irrel (e j m m' : Nat → Bool) (md : Bool) (N : Nat) :
    ∀ (k g : Nat) (acc : List Nat),
      runFile e j m md N k g acc = runFile e j m' md N k g acc := by
  intro k
  induction k with
  | zero => intro g acc; rfl
  | succ n ih =>
    intro g acc
    simp only [runFile]
    by_cases he : e g
    · by_cases hj : j g
      · simp only [he, hj, if_true]
        exact ih _ _
      · simp [he, hj]
    · simp [he]

theorem progressValue_bounds (N p : Nat) :
    70 ≤ progressValue N p ∧ progressValue N p ≤ 99 := by
  unfold progressValue
  have h : min 29 ((29 * p) / max 1 N) ≤ 29 := min_le_left _ _
  refine ⟨Nat.le_add_right 70 _, ?_⟩
  simpa using Nat.add_le_add_left h 70

theorem runFile_progress_mem (e j m : Nat → Bool) (md : Bool) (N : Nat) :
    ∀ (k g : Nat) (acc : List Nat) (v : Nat),
      v ∈ (runFile e j m md N k g acc).2.1 →
      v ∈ acc ∨ ∃ p, v = progressValue N p := by
  intro k
  induction k with
  | zero =>
    intro g acc v hv
    simp only [runFile] at hv
    exact Or.inl (List.mem_reverse.mp hv)
  | succ n ih =>
    intro g acc v hv
    simp only [runFile] at hv
    by_cases he : e g
    · by_cases hj : j g
      · simp only [he, hj, if_true] at hv
        rcases ih _ _ _ hv with hmem | hp
        · rcases List.mem_cons.mp hmem with h | h
          · exact Or.inr ⟨g + 1, h⟩
          · exact Or.inl h
        · exact Or.inr hp
      · simp only [he, hj] at hv
        simp at hv
        exact Or.inl (by simpa using hv)
    · simp only [he] at hv
      simp at hv
      exact Or.inl (by simpa using hv)

theorem buildRagGo_progress_mem (e j m : Nat → Bool) (u : Nat → Nat → Bool)
    (md : Bool) (N : Nat) :
    ∀ (files : List Nat) (f g : Nat) (acc : List (List Nat)) (v : Nat),
      v ∈ (buildRagGo e j m u md N files f g acc).progressPerFile.flatten →
      v ∈ acc.flatten ∨ ∃ p, v = progressValue N p := by
  intro files
  induction files with
  | nil =>
    intro f g acc v hv
    simp only [buildRagGo] at hv
    obtain ⟨l, hl, hvl⟩ := List.mem_flatten.mp hv
    exact Or.inl (List.mem_flatten.mpr ⟨l, List.mem_reverse.mp hl, hvl⟩)
  | cons k rest ih =>
    intro f g acc v hv
    rcases hr : runFile e j m md N k g [] with ⟨ok, prog, g'⟩
    have hprog : ∀ x ∈ prog, ∃ p, x = progressValue N p := by
      intro x hx
      have := runFile_progress_mem e j m md N k g [] x (by rw [hr]; exact hx)
      rcases this with h | h
      · simp at h
      · exact h
    simp only [buildRagGo, hr] at hv
    by_cases hok : ok = true
    · rw [hok] at hv
      simp only [if_true] at hv
      by_cases hb : runBatches (u f) (numBatches k) 0 = true
      · rw [hb] at hv
        simp only [if_true] at hv
        rcases ih (f + 1) g' (prog :: acc) v hv with hmem | hp
        · obtain ⟨l, hl, hvl⟩ := List.mem_flatten.mp hmem
          rcases List.mem_cons.mp hl with h | h
          · exact Or.inr (hprog v (h ▸ hvl))
          · exact Or.inl (List.mem_flatten.mpr ⟨l, h, hvl⟩)
        · exact Or.inr hp
      · have hb' : runBatches (u f) (numBatches k) 0 = false := by simpa using hb
        rw [hb'] at hv
        simp only [Bool.false_eq_true, if_false] at hv
        obtain ⟨l, hl, hvl⟩ := List.mem_flatten.mp hv
        rcases List.mem_cons.mp (List.mem_reverse.mp hl) with h | h
        · exact Or.inr (hprog v (h ▸ hvl))
        · exact Or.inl (List.mem_flatten.mpr ⟨l, h, hvl⟩)
    · have hok' : ok = false := by simpa using hok
      rw [hok'] at hv
      simp only [Bool.false_eq_true, if_false] at hv
      obtain ⟨l, hl, hvl⟩ := List.mem_flatten.mp hv
      rcases List.mem_cons.mp (List.mem_reverse.mp hl) with h | h
      · exact Or.inr (hprog v (h ▸ hvl))
      · exact Or.inl (List.mem_flatten.mpr ⟨l, h, hvl⟩)

theorem runFile_allok (m : Nat → Bool) (md : Bool) (N : Nat) :
    ∀ (k g : Nat) (acc : List Nat),
      runFile (fun _ => true) (fun _ => true) m md N k g acc =
        (true, acc.reverse ++ (List.range k).map (fun i => progressValue N (g + i + 1)),
          g + k) := by
  intro k
  induction k with
  | zero => intro g acc; simp [runFile]
  | succ n ih =>
    intro g acc
    simp only [runFile, if_true]
    rw [ih (g + 1) (progressValue N (g + 1) :: acc)]
    have hmap : (List.range (n + 1)).map (fun i => progressValue N (g + i + 1)) =
        progressValue N (g + 1) ::
          (List.range n).map (fun i => progressValue N (g + 1 + i + 1)) := by
      rw [List.range_succ_eq_map]
      simp only [List.map_cons, List.map_map, Nat.add_zero]
      congr 1
      apply List.map_congr_left
      intro i _
      simp only [Function.comp_apply]
      congr 1
      omega
    rw [hmap, show g + 1 + n = g + (n + 1) from by omega]
    simp [List.reverse_cons, List.append_assoc]

theorem runBatches_allok : ∀ n i : Nat, runBatches (fun _ => true) n i = true := by
  intro n
  induction n with
  | zero => intro i; rfl
  | succ b ih => intro i; simp only [runBatches, Bool.true_and]; exact ih (i + 1)

theorem buildRagGo_allok (m : Nat → Bool) (md : Bool) (N : Nat) :
    ∀ (files : List Nat) (f g : Nat) (acc : List (List Nat)),
      buildRagGo (fun _ => true) (fun _ => true) m (fun _ _ => true) md N files f g acc =
        ⟨false, acc.reverse ++ progressSpec N files g⟩ := by
  intro files
  induction files with
  | nil => intro f g acc; simp [buildRagGo, progressSpec]
  | cons k rest ih =>
    intro f g acc
    simp only [buildRagGo]
    rw [runFile_allok m md N k g []]
    simp only [List.reverse_nil, List.nil_append]
    rw [runBatches_allok (numBatches k) 0]
    simp only [if_true]
    rw [ih (f + 1) (g + k) _]
    simp only [progressSpec, List.reverse_cons, List.append_assoc,
      List.singleton_append]

/-- C9 (amended): every progress value `buildRag` reports lies in the
caller's 70–99 sub-range, and the reported values are
`70 + min(29, floor(29·c / max(1, fileCount)))` for `c` the number
of chunks processed so far — a function of the cumulative chunk
count, not of the file count alone. -/
theorem buildRag_progress_amended :
    (∀ (files : List Nat) (eOk jOk mOk : Nat → Bool) (uOk : Nat → Nat → Bool)
        (md : Bool),
      ∀ v ∈ (buildRagRun files eOk jOk mOk uOk md).progressPerFile.flatten,
        70 ≤ v ∧ v ≤ 99) ∧
    (∀ (files : List Nat) (mOk : Nat → Bool) (md : Bool),
      (buildRagRun files (fun _ => true) (fun _ => true) mOk
          (fun _ _ => true) md).progressPerFile =
        progressSpec files.length files 0) := by
  constructor
  · intro files e j m u md v hv
    rcases buildRagGo_progress_mem e j m u md files.length files 0 0 [] v hv with h | ⟨p, hp⟩
    · simp at h
    · rw [hp]
      exact progressValue_bounds _ _
  · intro files m md
    unfold buildRagRun
    rw [buildRagGo_allok m md files.length files 0 0 []]
    simp

/-- C9 counterexample: two runs with the same number of files (2),
observed after the first file: with chunk counts [1, 1] the first
file's reported values end at 84, with [2, 1] they end at 99 — the
reported value depends on the chunk count, not only on the number of
files processed and the file count. -/
theorem buildRag_progress_cex :
    (buildRagRun [1, 1] (fun _ => true) (fun _ => true) (fun _ => true)
        (fun _ _ => true) false).progressPerFile.head? = some [84] ∧
    (buildRagRun [2, 1] (fun _ => true) (fun _ => true) (fun _ => true)
        (fun _ _ => true) false).progressPerFile.head? = some [84, 99] := by
  exact ⟨by decide, by decide⟩

end Scraper

namespace Scraper

theorem buildRagGo_md_irrel (e j m m' : Nat → Bool) (u : Nat → Nat → Bool)
    (md : Bool) (N : Nat) :
    ∀ (files : List Nat) (f g : Nat) (acc : List (List Nat)),
      buildRagGo e j m u md N files f g acc = buildRagGo e j m' u md N files f g acc := by
  intro files
  induction files with
  | nil => intro f g acc; rfl
  | cons k rest ih =>
    intro f g acc
    simp only [buildRagGo]
    rw [← runFile_md_irrel e j m m' md N k g []]
    rcases hr : runFile e j m md N k g [] with ⟨ok, prog, g'⟩
    by_cases hok : ok = true
    · subst hok
      simp only [if_true]
      by_cases hb : runBatches (u f) (numBatches k) 0 = true
      · rw [hb]
        simp only [if_true]
        exact ih _ _ _
      · have hb' : runBatches (u f) (numBatches k) 0 = false := by simpa using hb
        rw [hb']
        simp
    · have hok' : ok = false := by simpa using hok
      subst hok'
      simp

theorem runFile_ok_iff (e j m : Nat → Bool) (md : Bool) (N : Nat) :
    ∀ (k g : Nat) (acc : List Nat),
      (runFile e j m md N k g acc).1 = true ↔
        ∀ i, i < k → e (g + i) = true ∧ j (g + i) = true := by
  intro k
  induction k with
  | zero =>
    intro g acc
    simp [runFile]
  | succ n ih =>
    intro g acc
    simp only [runFile]
    by_cases he : e g
    · by_cases hj : j g
      · simp only [he, hj, if_true]
        rw [ih (g + 1) _]
        constructor
        · intro h i hi
          rcases Nat.eq_zero_or_pos i with h0 | hpos
          · subst h0
            simpa using ⟨he, hj⟩
          · have := h (i - 1) (by omega)
            have hgi : g + 1 + (i - 1) = g + i := by omega
            rw [hgi] at this
            exact this
        · intro h i hi
          have := h (i + 1) (by omega)
          have hgi : g + i + 1 = g + 1 + i := by omega
          rw [← hgi]
          exact this
      · have hj' : j g = false := by simpa using hj
        simp only [he, hj', if_true, Bool.false_eq_true, if_false]
        constructor
        · intro h; simp at h
        · intro h
          have := (h 0 (by omega)).2
          simp only [Nat.add_zero] at this
          rw [this] at hj'
          simp at hj'
    · have he' : e g = false := by simpa using he
      simp only [he', Bool.false_eq_true, if_false]
      constructor
      · intro h; simp at h
      · intro h
        have := (h 0 (by omega)).1
        simp only [Nat.add_zero] at this
        rw [this] at he'
        simp at he'

theorem runFile_next (e j m : Nat → Bool) (md : Bool) (N : Nat) :
    ∀ (k g : Nat) (acc : List Nat),
      (runFile e j m md N k g acc).1 = true →
      (runFile e j m md N k g acc).2.2 = g + k := by
  intro k
  induction k with
  | zero => intro g acc _; simp [runFile]
  | succ n ih =>
    intro g acc hok
    simp only [runFile] at hok ⊢
    by_cases he : e g
    · by_cases hj : j g
      · simp only [he, hj, if_true] at hok ⊢
        rw [ih (g + 1) _ hok]
        omega
      · have hj' : j g = false := by simpa using hj
        simp [he, hj'] at hok
    · have he' : e g = false := by simpa using he
      simp [he'] at hok

theorem runBatches_iff (u : Nat → Bool) :
    ∀ (n i : Nat), runBatches u n i = true ↔ ∀ b, b < n → u (i + b) = true := by
  intro n
  induction n with
  | zero => intro i; simp [runBatches]
  | succ b ih =>
    intro i
    simp only [runBatches, Bool.and_eq_true]
    rw [ih (i + 1)]
    constructor
    · intro ⟨hu, h⟩ c hc
      rcases Nat.eq_zero_or_pos c with h0 | hpos
      · subst h0; simpa using hu
      · have := h (c - 1) (by omega)
        have hic : i + 1 + (c - 1) = i + c := by omega
        rw [hic] at this
        exact this
    · intro h
      refine ⟨by simpa using h 0 (by omega), ?_⟩
      intro c hc
      have := h (c + 1) (by omega)
      have hic : i + (c + 1) = i + 1 + c := by omega
      rw [hic] at this
      exact this

theorem buildRagGo_ok_iff (e j m : Nat → Bool) (u : Nat → Nat → Bool)
    (md : Bool) (N : Nat) :
    ∀ (files : List Nat) (f g : Nat) (acc : List (List Nat)),
      (buildRagGo e j m u md N files f g acc).aborted = false ↔
        ((∀ i, i < files.sum → e (g + i) = true ∧ j (g + i) = true) ∧
         (∀ d k, files[d]? = some k → ∀ b, b < numBatches k → u (f + d) b = true)) := by
  intro files
  induction files with
  | nil =>
    intro f g acc
    simp [buildRagGo]
  | cons k rest ih =>
    intro f g acc
    simp only [buildRagGo]
    rcases hr : runFile e j m md N k g [] with ⟨ok, prog, g'⟩
    by_cases hok : ok = true
    · subst hok
      have hfile : ∀ i, i < k → e (g + i) = true ∧ j (g + i) = true := by
        have := (runFile_ok_iff e j m md N k g []).mp (by rw [hr])
        exact this
      have hg' : g' = g + k := by
        have := runFile_next e j m md N k g [] (by rw [hr])
        rw [hr] at this
        exact this
      subst hg'
      simp only [if_true]
      by_cases hb : runBatches (u f) (numBatches k) 0 = true
      · have hbatch : ∀ b, b < numBatches k → u f b = true := by
          intro b hbn
          have := (runBatches_iff (u f) (numBatches k) 0).mp hb b hbn
          simpa using this
        rw [hb]
        simp only [if_true]
        rw [ih (f + 1) (g + k) _]
        constructor
        · intro ⟨h1, h2⟩
          constructor
          · intro i hi
            rcases Nat.lt_or_ge i k with hik | hik
            · exact hfile i hik
            · have := h1 (i - k) (by simp [List.sum_cons] at hi; omega)
              have heq : g + k + (i - k) = g + i := by omega
              rw [heq] at this
              exact this
          · intro d kd hd b hbn
            rcases d with _ | d'
            · simp at hd
              subst hd
              exact hbatch b hbn
            · have : rest[d']? = some kd := by simpa using hd
              have := h2 d' kd this b hbn
              have heq : f + 1 + d' = f + (d' + 1) := by omega
              rw [heq] at this
              exact this
        · intro ⟨h1, h2⟩
          constructor
          · intro i hi
            have := h1 (k + i) (by simp [List.sum_cons]; omega)
            have heq : g + (k + i) = g + k + i := by omega
            rw [heq] at this
            exact this
          · intro d kd hd b hbn
            have : (k :: rest)[d + 1]? = some kd := by simpa using hd
            have := h2 (d + 1) kd this b hbn
            have heq : f + (d + 1) = f + 1 + d := by omega
            rw [heq] at this
            exact this
      · have hb' : runBatches (u f) (numBatches k) 0 = false := by simpa using hb
        rw [hb']
        simp only [Bool.false_eq_true, if_false]
        constructor
        · intro h; simp at h
        · intro ⟨h1, h2⟩
          have : ∀ b, b < numBatches k → u f b = true := by
            intro b hbn
            have := h2 0 k (by simp) b hbn
            simpa using this
          have : runBatches (u f) (numBatches k) 0 = true := by
            rw [runBatches_iff]
            intro b hbn
            simpa using this b hbn
          rw [this] at hb'
          simp at hb'
    · have hok' : ok = false := by simpa using hok
      subst hok'
      simp only [Bool.false_eq_true, if_false]
      constructor
      · intro h; simp at h
      · intro ⟨h1, h2⟩
        have : (runFile e j m md N k g []).1 = true := by
          rw [runFile_ok_iff]
          intro i hi
          exact h1 i (by simp [List.sum_cons]; omega)
        rw [hr] at this
        simp at this

/-- C8 (amended): in `buildRag`, the outcome of the optional per-chunk
markdown export write is discarded (`.catch(() => {})`): it is
swallowed silently, neither logged nor able to abort the run; whereas
the pipeline completes without error iff every chunk's embedding call
and JSONL export-line write succeed and every upsert batch succeeds —
an error from the embedding call, the JSONL line write or an index
upsert aborts the whole pipeline. -/
theorem buildRag_errors_amended :
    (∀ (files : List Nat) (eOk jOk mOk mOk' : Nat → Bool) (uOk : Nat → Nat → Bool)
        (md : Bool),
      buildRagRun files eOk jOk mOk uOk md = buildRagRun files eOk jOk mOk' uOk md) ∧
    (∀ (files : List Nat) (eOk jOk mOk : Nat → Bool) (uOk : Nat → Nat → Bool)
        (md : Bool),
      (buildRagRun files eOk jOk mOk uOk md).aborted = false ↔
        ((∀ i, i < files.sum → eOk i = true ∧ jOk i = true) ∧
         (∀ d k, files[d]? = some k → ∀ b, b < numBatches k → uOk d b = true))) := by
  constructor
  · intro files e j m m' u md
    exact buildRagGo_md_irrel e j m m' u md files.length files 0 0 []
  · intro files e j m u md
    unfold buildRagRun
    rw [buildRagGo_ok_iff e j m u md files.length files 0 0 []]
    constructor
    · intro ⟨h1, h2⟩
      exact ⟨fun i hi => by simpa using h1 i hi,
        fun d k hd b hb => by simpa using h2 d k hd b hb⟩
    · intro ⟨h1, h2⟩
      exact ⟨fun i hi => by simpa using h1 i hi,
        fun d k hd b hb => by simpa using h2 d k hd b hb⟩

/-- C8 counterexample: one file with one chunk whose embedding
succeeds but whose JSONL export-line write fails: the pipeline
aborts, where the claim says a failing export-line write is logged
and skipped without aborting. -/
theorem buildRag_errors_cex :
    (buildRagRun [1] (fun _ => true) (fun _ => false) (fun _ => true)
        (fun _ _ => true) false).aborted = true := by decide

end Scraper

namespace Scraper

/-! ## Claim C4: no URL is fetched twice -/

theorem count_le_bound_mono {u : UrlS} {p1 p2 : List UrlS} (a b : Nat)
    (hsub : ∀ x : UrlS, x ∈ p1 → x ∈ p2)
    (h : a + b ≤ (if u ∈ p1 then 1 else 0)) :
    a + b ≤ (if u ∈ p2 then 1 else 0) := by
  by_cases h1 : u ∈ p1
  · rw [if_pos (hsub u h1)]
    simpa [h1] using h
  · refine le_trans h ?_
    rw [if_neg h1]
    split_ifs <;> omega

theorem dedupInv_step {s s' : DedupState} (hst : DedupStep s s')
    (hinv : DedupInv s) : DedupInv s' := by
  cases hst with
  | enqueue u s hseen hproc =>
    intro x
    exact hinv x
  | dispatch u rest s hq hproc =>
    intro x
    exact hinv x
  | dispatchSkip u rest s hq hproc =>
    intro x
    exact hinv x
  | guardHit u s hpend hproc =>
    intro x
    exact hinv x
  | guardPass u s hpend hproc =>
    intro x
    by_cases hx : x = u
    · subst hx
      have h0 := hinv x
      rw [if_neg hproc] at h0
      have hf : s.fetchLog.count x = 0 := by omega
      have hi : s.inflight.count x = 0 := by omega
      simp only [List.count_cons_self, hf, hi, if_pos (List.mem_cons_self x _)]
      omega
    · have h0 := hinv x
      have hcnt : (u :: s.inflight).count x = s.inflight.count x := by
        rw [List.count_cons]
        simp [Ne.symm hx]
      simp only [hcnt]
      refine count_le_bound_mono _ _ (fun y hy => List.mem_cons_of_mem _ hy) h0
  | fetch u s hin =>
    intro x
    dsimp only
    have h0 := hinv x
    by_cases hx : x = u
    · subst hx
      have hcf : (x :: s.fetchLog).count x = s.fetchLog.count x + 1 :=
        List.count_cons_self _ _
      have hci : (s.inflight.erase x).count x = s.inflight.count x - 1 := by
        rw [List.count_erase]
        simp
      have hpos : 1 ≤ s.inflight.count x := List.count_pos_iff.mpr hin
      rw [hcf, hci]
      omega
    · have hcf : (u :: s.fetchLog).count x = s.fetchLog.count x := by
        rw [List.count_cons]
        simp [Ne.symm hx]
      have hci : (s.inflight.erase u).count x = s.inflight.count x := by
        rw [List.count_erase]
        simp [Ne.symm hx]
      rw [hcf, hci]
      exact h0

theorem dedupInv_reachable {s : DedupState} (h : DedupReachable s) : DedupInv s := by
  induction h with
  | init =>
    intro u
    simp [dedupInit]
  | step hr hst ih => exact dedupInv_step hst ih

/-- C4: within one crawl run, no normalized URL is handed to the page
fetch (`_getWithRetry` inside `_scrapePage`) more than once, for
every interleaving: in every reachable state of the crawl loop the
fetch log contains each URL at most once.  The `seenQueued` set
deduplicates enqueues and the `_processedUrls` check-and-mark guard
(atomic: no `await` separates the check from the insert) makes a
second fetch unreachable even when a URL is discovered repeatedly. -/
theorem crawl_no_double_fetch :
    ∀ s : DedupState, DedupReachable s → ∀ u : UrlS, s.fetchLog.count u ≤ 1 := by
  intro s h u
  have hi := dedupInv_reachable h u
  refine le_trans (le_trans (Nat.le_add_right _ _) hi) ?_
  split_ifs <;> omega

/-- Witness: the four-step run enqueue → dispatch → guard → fetch of
the single URL "a" reaches a state whose fetch log is `["a"]`; the
theorem bounds its count. -/
theorem crawl_no_double_fetch_witness :
    (DedupState.mk [] [lc "a"] [lc "a"] [] [] [lc "a"]).fetchLog.count (lc "a") ≤ 1 := by
  refine crawl_no_double_fetch _ ?_ (lc "a")
  have h1 : DedupReachable ⟨[lc "a"], [lc "a"], [], [], [], []⟩ :=
    DedupReachable.step DedupReachable.init
      (DedupStep.enqueue (lc "a") dedupInit (by simp [dedupInit]) (by simp [dedupInit]))
  have h2 : DedupReachable ⟨[], [lc "a"], [], [lc "a"], [], []⟩ :=
    DedupReachable.step h1 (DedupStep.dispatch (lc "a") [] _ rfl (by simp))
  have h3 : DedupReachable ⟨[], [lc "a"], [lc "a"], [], [lc "a"], []⟩ := by
    have := DedupReachable.step h2
      (DedupStep.guardPass (lc "a") _ (by simp) (by simp))
    simpa using this
  have h4 := DedupReachable.step h3 (DedupStep.fetch (lc "a") _ (by simp))
  simpa using h4

end Scraper

namespace Scraper

/-! ## Claim C5: helper facts for the scheduler invariant -/

theorem updFn_self {β : Type} (f : Nat → β) (w : Nat) (v : β) :
    updFn f w v w = v := by simp [updFn]

theorem updFn_ne {β : Type} {f : Nat → β} {w x : Nat} (v : β) (h : x ≠ w) :
    updFn f w v x = f x := by simp [updFn, h]

theorem updHost_self {β : Type} (f : UrlS → β) (h : UrlS) (v : β) :
    updHost f h v h = v := by simp [updHost]

theorem updHost_ne {β : Type} {f : UrlS → β} {h x : UrlS} (v : β) (hx : x ≠ h) :
    updHost f h v x = f x := by simp [updHost, hx]

theorem phase_ne {f : Nat → WPhase} {u w : Nat} {a b : WPhase}
    (hu : f u = a) (hw : f w = b) (hab : a ≠ b) : u ≠ w := by
  intro he
  subst he
  rw [hu] at hw
  exact hab hw

theorem countP_range_swap {p q : Nat → Bool} {w n : Nat}
    (hag : ∀ x, x ≠ w → p x = q x) (hw : w < n) :
    (List.range n).countP p + (if q w then 1 else 0)
      = (List.range n).countP q + (if p w then 1 else 0) := by
  induction n with
  | zero => omega
  | succ n ih =>
    rw [List.range_succ, List.countP_append, List.countP_append]
    by_cases hn : n = w
    · subst hn
      have hpq : (List.range n).countP p = (List.range n).countP q := by
        refine List.countP_congr (fun x hx => ?_)
        rw [hag x (by have := List.mem_range.mp hx; omega)]
      simp only [List.countP_cons, List.countP_nil, hpq]
      omega
    · have hwn : w < n := by
        rcases Nat.lt_succ_iff_lt_or_eq.mp hw with h | h
        · exact h
        · exact absurd h.symm hn
      have hpn : p n = q n := hag n hn
      simp only [List.countP_cons, List.countP_nil, hpn]
      have := ih hwn
      omega

theorem countP_range_congr_off {p q : Nat → Bool} {w n : Nat}
    (hag : ∀ x, x ≠ w → p x = q x) (hpq : p w = q w) :
    (List.range n).countP p = (List.range n).countP q := by
  refine List.countP_congr (fun x hx => ?_)
  by_cases hxw : x = w
  · subst hxw
    rw [hpq]
  · rw [hag x hxw]

theorem countP_range_swap2 {p q : Nat → Bool} {w v n : Nat}
    (hag : ∀ x, x ≠ w → x ≠ v → p x = q x) (hwv : w ≠ v)
    (hw : w < n) (hv : v < n) :
    (List.range n).countP p + (if q w then 1 else 0) + (if q v then 1 else 0)
      = (List.range n).countP q + (if p w then 1 else 0) + (if p v then 1 else 0) := by
  have h1 := countP_range_swap
    (p := p) (q := fun x => if x = v then q x else p x)
    (fun x hx => by simp [hx]) hv
  have h2 := countP_range_swap
    (p := fun x => if x = v then q x else p x) (q := q)
    (fun x hx => by
      by_cases hxv : x = v
      · subst hxv
        simp
      · simp [hxv, hag x hx hxv]) hw
  have h1' : (List.range n).countP p + (if q v then 1 else 0)
      = (List.range n).countP (fun x => if x = v then q x else p x)
        + (if p v then 1 else 0) := by
    simpa using h1
  have h2' : (List.range n).countP (fun x => if x = v then q x else p x)
        + (if q w then 1 else 0)
      = (List.range n).countP q + (if p w then 1 else 0) := by
    simpa [hwv] using h2
  omega

theorem two_le_countP {p : Nat → Bool} {n u v : Nat} (hu : u < n) (hv : v < n)
    (huv : u ≠ v) (hpu : p u = true) (hpv : p v = true) :
    2 ≤ (List.range n).countP p := by
  have hfu : u ∈ (List.range n).filter p :=
    List.mem_filter.mpr ⟨List.mem_range.mpr hu, hpu⟩
  have hfv : v ∈ (List.range n).filter p :=
    List.mem_filter.mpr ⟨List.mem_range.mpr hv, hpv⟩
  have hlen : (((List.range n).filter p).erase u).length + 1
      = ((List.range n).filter p).length :=
    List.length_erase_add_one hfu
  have hv2 : v ∈ ((List.range n).filter p).erase u :=
    (List.mem_erase_of_ne huv.symm).mpr hfv
  have hp2 : 0 < (((List.range n).filter p).erase u).length :=
    List.length_pos_of_mem hv2
  rw [List.countP_eq_length_filter]
  omega

end Scraper

namespace Scraper

theorem schedInv_tick (cfg : SchedCfg) (s : SchedState) (hinv : SchedInv cfg s) :
    SchedInv cfg { s with now := s.now + 1 } := by
  obtain ⟨h1, h2, h3, h4, h5, h6, h7, h8, h9⟩ := hinv
  refine ⟨h1, h2, h3, h4, h5, ?_, ?_, h8, h9⟩
  · intro h t ht
    exact le_trans (h6 h t ht) (Nat.le_succ _)
  · intro w st hst
    exact le_trans (h7 w st hst) (Nat.le_succ _)

theorem schedInv_semAcqFast (cfg : SchedCfg) (w : Nat) (s : SchedState)
    (hw : w < cfg.nW) (hph : s.phase w = .idle) (hc : 0 < s.semCount)
    (hinv : SchedInv cfg s) :
    SchedInv cfg { s with
      semCount := s.semCount - 1,
      phase := updFn s.phase w .semHeld } := by
  obtain ⟨h1, h2, h3, h4, h5, h6, h7, h8, h9⟩ := hinv
  refine ⟨?_, ?_, h3, ?_, ?_, h6, ?_, ?_, h9⟩
  · have hsw := countP_range_swap
      (p := fun x => isHolder (updFn s.phase w .semHeld x))
      (q := fun x => isHolder (s.phase x))
      (fun x hx => by simp only [updFn_ne _ hx]) hw
    have he1 : isHolder WPhase.idle = false := rfl
    have he2 : isHolder WPhase.semHeld = true := rfl
    simp [updFn_self, hph, he1, he2] at hsw
    simp only [holderCount] at h1 ⊢
    try dsimp only
    omega
  · intro u hu
    obtain ⟨hun, hup⟩ := h2 u hu
    refine ⟨hun, ?_⟩
    show updFn s.phase w WPhase.semHeld u = WPhase.semWaiting
    rw [updFn_ne _ (phase_ne hup hph (fun hh => WPhase.noConfusion hh))]
    exact hup
  · intro h
    obtain ⟨hm, hnd⟩ := h4 h
    refine ⟨?_, hnd⟩
    intro u hu
    obtain ⟨hun, hup, huh⟩ := hm u hu
    refine ⟨hun, ?_, huh⟩
    show updFn s.phase w WPhase.semHeld u = WPhase.hostWaiting
    rw [updFn_ne _ (phase_ne hup hph (fun hh => WPhase.noConfusion hh))]
    exact hup
  · intro h
    have hcg := countP_range_congr_off (w := w) (n := cfg.nW)
      (p := fun x => holdsHost (updFn s.phase w .semHeld x) && decide (cfg.hostOf x = h))
      (q := fun x => holdsHost (s.phase x) && decide (cfg.hostOf x = h))
      (fun x hx => by simp only [updFn_ne _ hx])
      (by simp only [updFn_self, hph]; rfl)
    simp only [hostHolderCount] at h5 ⊢
    try dsimp only
    rw [hcg]
    exact h5 h
  · intro x st hst
    by_cases hxw : x = w
    · subst hxw
      have hst' : updFn s.phase x WPhase.semHeld x = WPhase.fetching st := hst
      rw [updFn_self] at hst'
      exact absurd hst' (fun hh => WPhase.noConfusion hh)
    · have h0 : updFn s.phase w WPhase.semHeld x = WPhase.fetching st := hst
      rw [updFn_ne _ hxw] at h0
      exact h7 x st h0
  · intro e he
    rcases h8 e he with ⟨w', hw', hwo, hwp⟩ | hcov
    · refine Or.inl ⟨w', hw', hwo, ?_⟩
      show updFn s.phase w WPhase.semHeld w' = WPhase.fetching e.2
      rw [updFn_ne _ (phase_ne hwp hph (fun hh => WPhase.noConfusion hh))]
      exact hwp
    · exact Or.inr hcov

theorem schedInv_semAcqWait (cfg : SchedCfg) (w : Nat) (s : SchedState)
    (hw : w < cfg.nW) (hph : s.phase w = .idle) (hc : s.semCount = 0)
    (hinv : SchedInv cfg s) :
    SchedInv cfg { s with
      semQueue := s.semQueue ++ [w],
      phase := updFn s.phase w .semWaiting } := by
  obtain ⟨h1, h2, h3, h4, h5, h6, h7, h8, h9⟩ := hinv
  refine ⟨?_, ?_, ?_, ?_, ?_, h6, ?_, ?_, h9⟩
  · have hcg := countP_range_congr_off (w := w) (n := cfg.nW)
      (p := fun x => isHolder (updFn s.phase w .semWaiting x))
      (q := fun x => isHolder (s.phase x))
      (fun x hx => by simp only [updFn_ne _ hx])
      (by simp only [updFn_self, hph]; rfl)
    simp only [holderCount] at h1 ⊢
    try dsimp only
    rw [hcg]
    exact h1
  · intro u hu
    rw [List.mem_append] at hu
    rcases hu with hu | hu
    · obtain ⟨hun, hup⟩ := h2 u hu
      refine ⟨hun, ?_⟩
      show updFn s.phase w WPhase.semWaiting u = WPhase.semWaiting
      rw [updFn_ne _ (phase_ne hup hph (fun hh => WPhase.noConfusion hh))]
      exact hup
    · rw [List.mem_singleton] at hu
      subst hu
      refine ⟨hw, ?_⟩
      show updFn s.phase u WPhase.semWaiting u = WPhase.semWaiting
      rw [updFn_self]
  · rw [List.nodup_append]
    refine ⟨h3, List.nodup_singleton w, ?_⟩
    intro u hu hu2
    rw [List.mem_singleton] at hu2
    subst hu2
    obtain ⟨_, hup⟩ := h2 u hu
    rw [hph] at hup
    exact WPhase.noConfusion hup
  · intro h
    obtain ⟨hm, hnd⟩ := h4 h
    refine ⟨?_, hnd⟩
    intro u hu
    obtain ⟨hun, hup, huh⟩ := hm u hu
    refine ⟨hun, ?_, huh⟩
    show updFn s.phase w WPhase.semWaiting u = WPhase.hostWaiting
    rw [updFn_ne _ (phase_ne hup hph (fun hh => WPhase.noConfusion hh))]
    exact hup
  · intro h
    have hcg := countP_range_congr_off (w := w) (n := cfg.nW)
      (p := fun x => holdsHost (updFn s.phase w .semWaiting x) && decide (cfg.hostOf x = h))
      (q := fun x => holdsHost (s.phase x) && decide (cfg.hostOf x = h))
      (fun x hx => by simp only [updFn_ne _ hx])
      (by simp only [updFn_self, hph]; rfl)
    simp only [hostHolderCount] at h5 ⊢
    try dsimp only
    rw [hcg]
    exact h5 h
  · intro x st hst
    by_cases hxw : x = w
    · subst hxw
      have hst' : updFn s.phase x WPhase.semWaiting x = WPhase.fetching st := hst
      rw [updFn_self] at hst'
      exact absurd hst' (fun hh => WPhase.noConfusion hh)
    · have hst' : s.phase x = WPhase.fetching st := by
        have h0 : updFn s.phase w WPhase.semWaiting x = WPhase.fetching st := hst
        rwa [updFn_ne _ hxw] at h0
      exact h7 x st hst'
  · intro e he
    rcases h8 e he with ⟨w', hw', hwo, hwp⟩ | hcov
    · refine Or.inl ⟨w', hw', hwo, ?_⟩
      show updFn s.phase w WPhase.semWaiting w' = WPhase.fetching e.2
      rw [updFn_ne _ (phase_ne hwp hph (fun hh => WPhase.noConfusion hh))]
      exact hwp
    · exact Or.inr hcov

end Scraper

namespace Scraper

theorem schedInv_hostAcquire (cfg : SchedCfg) (w : Nat) (s : SchedState)
    (hw : w < cfg.nW) (hph : s.phase w = .semHeld)
    (hfree : s.hostFree (cfg.hostOf w) = true)
    (hinv : SchedInv cfg s) :
    SchedInv cfg { s with
      hostFree := updHost s.hostFree (cfg.hostOf w) false,
      phase := updFn s.phase w .hostHeld } := by
  obtain ⟨h1, h2, h3, h4, h5, h6, h7, h8, h9⟩ := hinv
  refine ⟨?_, ?_, h3, ?_, ?_, h6, ?_, ?_, h9⟩
  · have hcg := countP_range_congr_off (w := w) (n := cfg.nW)
      (p := fun x => isHolder (updFn s.phase w .hostHeld x))
      (q := fun x => isHolder (s.phase x))
      (fun x hx => by simp only [updFn_ne _ hx])
      (by simp only [updFn_self, hph]; rfl)
    simp only [holderCount] at h1 ⊢
    rw [hcg]
    exact h1
  · intro u hu
    obtain ⟨hun, hup⟩ := h2 u hu
    refine ⟨hun, ?_⟩
    show updFn s.phase w WPhase.hostHeld u = WPhase.semWaiting
    rw [updFn_ne _ (phase_ne hup hph (fun hh => WPhase.noConfusion hh))]
    exact hup
  · intro h
    obtain ⟨hm, hnd⟩ := h4 h
    refine ⟨?_, hnd⟩
    intro u hu
    obtain ⟨hun, hup, huh⟩ := hm u hu
    refine ⟨hun, ?_, huh⟩
    show updFn s.phase w WPhase.hostHeld u = WPhase.hostWaiting
    rw [updFn_ne _ (phase_ne hup hph (fun hh => WPhase.noConfusion hh))]
    exact hup
  · intro h
    by_cases hh : h = cfg.hostOf w
    · subst hh
      have hsw := countP_range_swap
        (p := fun x => holdsHost (updFn s.phase w .hostHeld x)
          && decide (cfg.hostOf x = cfg.hostOf w))
        (q := fun x => holdsHost (s.phase x) && decide (cfg.hostOf x = cfg.hostOf w))
        (fun x hx => by simp only [updFn_ne _ hx]) hw
      simp only [updFn_self, hph] at hsw
      have hh1 : holdsHost WPhase.hostHeld = true := rfl
      have hh0 : holdsHost WPhase.semHeld = false := rfl
      simp [hh1, hh0] at hsw
      have h5w := h5 (cfg.hostOf w)
      rw [hfree] at h5w
      simp only [hostHolderCount] at h5w hsw ⊢
      try dsimp only
      have hg : (if (updHost s.hostFree (cfg.hostOf w) false) (cfg.hostOf w) = true
          then 1 else 0) = 0 := by
        simp [updHost_self]
      rw [hg]
      simp only [if_true] at h5w
      omega
    · have hd : decide (cfg.hostOf w = h) = false :=
        decide_eq_false (fun hh2 => hh hh2.symm)
      have hcg := countP_range_congr_off (w := w) (n := cfg.nW)
        (p := fun x => holdsHost (updFn s.phase w .hostHeld x) && decide (cfg.hostOf x = h))
        (q := fun x => holdsHost (s.phase x) && decide (cfg.hostOf x = h))
        (fun x hx => by simp only [updFn_ne _ hx])
        (by simp only [updFn_self, hph, hd, Bool.and_false])
      simp only [hostHolderCount] at h5 ⊢
      simp only [updHost_ne _ hh, hcg]
      exact h5 h
  · intro x st hst
    by_cases hxw : x = w
    · subst hxw
      have hst' : updFn s.phase x WPhase.hostHeld x = WPhase.fetching st := hst
      rw [updFn_self] at hst'
      exact absurd hst' (fun hh => WPhase.noConfusion hh)
    · have h0 : updFn s.phase w WPhase.hostHeld x = WPhase.fetching st := hst
      rw [updFn_ne _ hxw] at h0
      exact h7 x st h0
  · intro e he
    rcases h8 e he with ⟨w', hw', hwo, hwp⟩ | hcov
    · refine Or.inl ⟨w', hw', hwo, ?_⟩
      show updFn s.phase w WPhase.hostHeld w' = WPhase.fetching e.2
      rw [updFn_ne _ (phase_ne hwp hph (fun hh => WPhase.noConfusion hh))]
      exact hwp
    · exact Or.inr hcov

end Scraper

namespace Scraper

theorem schedInv_hostWait (cfg : SchedCfg) (w : Nat) (s : SchedState)
    (hw : w < cfg.nW) (hph : s.phase w = .semHeld)
    (hinv : SchedInv cfg s) :
    SchedInv cfg { s with
      hostQueue := updHost s.hostQueue (cfg.hostOf w)
        (s.hostQueue (cfg.hostOf w) ++ [w]),
      phase := updFn s.phase w .hostWaiting } := by
  obtain ⟨h1, h2, h3, h4, h5, h6, h7, h8, h9⟩ := hinv
  refine ⟨?_, ?_, h3, ?_, ?_, h6, ?_, ?_, h9⟩
  · have hcg := countP_range_congr_off (w := w) (n := cfg.nW)
      (p := fun x => isHolder (updFn s.phase w .hostWaiting x))
      (q := fun x => isHolder (s.phase x))
      (fun x hx => by simp only [updFn_ne _ hx])
      (by simp only [updFn_self, hph]; rfl)
    simp only [holderCount] at h1 ⊢
    rw [hcg]
    exact h1
  · intro u hu
    obtain ⟨hun, hup⟩ := h2 u hu
    refine ⟨hun, ?_⟩
    show updFn s.phase w WPhase.hostWaiting u = WPhase.semWaiting
    rw [updFn_ne _ (phase_ne hup hph (fun hh => WPhase.noConfusion hh))]
    exact hup
  · intro h
    by_cases hh : h = cfg.hostOf w
    · subst hh
      obtain ⟨hm, hnd⟩ := h4 (cfg.hostOf w)
      have hq : (updHost s.hostQueue (cfg.hostOf w)
          (s.hostQueue (cfg.hostOf w) ++ [w])) (cfg.hostOf w)
          = s.hostQueue (cfg.hostOf w) ++ [w] := updHost_self _ _ _
      refine ⟨?_, ?_⟩
      · intro u hu
        dsimp only at hu
        rw [hq, List.mem_append] at hu
        rcases hu with hu | hu
        · obtain ⟨hun, hup, huh⟩ := hm u hu
          refine ⟨hun, ?_, huh⟩
          show updFn s.phase w WPhase.hostWaiting u = WPhase.hostWaiting
          rw [updFn_ne _ (phase_ne hup hph (fun hh2 => WPhase.noConfusion hh2))]
          exact hup
        · rw [List.mem_singleton] at hu
          subst hu
          refine ⟨hw, ?_, rfl⟩
          show updFn s.phase u WPhase.hostWaiting u = WPhase.hostWaiting
          rw [updFn_self]
      · show ((updHost s.hostQueue (cfg.hostOf w)
            (s.hostQueue (cfg.hostOf w) ++ [w])) (cfg.hostOf w)).Nodup
        rw [hq, List.nodup_append]
        refine ⟨hnd, List.nodup_singleton w, ?_⟩
        intro u hu hu2
        rw [List.mem_singleton] at hu2
        subst hu2
        obtain ⟨_, hup, _⟩ := hm u hu
        rw [hph] at hup
        exact WPhase.noConfusion hup
    · obtain ⟨hm, hnd⟩ := h4 h
      have hq : (updHost s.hostQueue (cfg.hostOf w)
          (s.hostQueue (cfg.hostOf w) ++ [w])) h
          = s.hostQueue h := updHost_ne _ hh
      refine ⟨?_, ?_⟩
      · intro u hu
        dsimp only at hu
        rw [hq] at hu
        obtain ⟨hun, hup, huh⟩ := hm u hu
        refine ⟨hun, ?_, huh⟩
        show updFn s.phase w WPhase.hostWaiting u = WPhase.hostWaiting
        rw [updFn_ne _ (phase_ne hup hph (fun hh2 => WPhase.noConfusion hh2))]
        exact hup
      · show ((updHost s.hostQueue (cfg.hostOf w)
            (s.hostQueue (cfg.hostOf w) ++ [w])) h).Nodup
        rw [hq]
        exact hnd
  · intro h
    have hcg := countP_range_congr_off (w := w) (n := cfg.nW)
      (p := fun x => holdsHost (updFn s.phase w .hostWaiting x) && decide (cfg.hostOf x = h))
      (q := fun x => holdsHost (s.phase x) && decide (cfg.hostOf x = h))
      (fun x hx => by simp only [updFn_ne _ hx])
      (by simp only [updFn_self, hph]; rfl)
    simp only [hostHolderCount] at h5 ⊢
    rw [hcg]
    exact h5 h
  · intro x st hst
    by_cases hxw : x = w
    · subst hxw
      have hst' : updFn s.phase x WPhase.hostWaiting x = WPhase.fetching st := hst
      rw [updFn_self] at hst'
      exact absurd hst' (fun hh => WPhase.noConfusion hh)
    · have h0 : updFn s.phase w WPhase.hostWaiting x = WPhase.fetching st := hst
      rw [updFn_ne _ hxw] at h0
      exact h7 x st h0
  · intro e he
    rcases h8 e he with ⟨w', hw', hwo, hwp⟩ | hcov
    · refine Or.inl ⟨w', hw', hwo, ?_⟩
      show updFn s.phase w WPhase.hostWaiting w' = WPhase.fetching e.2
      rw [updFn_ne _ (phase_ne hwp hph (fun hh => WPhase.noConfusion hh))]
      exact hwp
    · exact Or.inr hcov

theorem schedInv_skipFetch (cfg : SchedCfg) (w : Nat) (s : SchedState)
    (hw : w < cfg.nW) (hph : s.phase w = .semHeld)
    (hinv : SchedInv cfg s) :
    SchedInv cfg { s with phase := updFn s.phase w .hostReleased } := by
  obtain ⟨h1, h2, h3, h4, h5, h6, h7, h8, h9⟩ := hinv
  refine ⟨?_, ?_, h3, ?_, ?_, h6, ?_, ?_, h9⟩
  · have hcg := countP_range_congr_off (w := w) (n := cfg.nW)
      (p := fun x => isHolder (updFn s.phase w .hostReleased x))
      (q := fun x => isHolder (s.phase x))
      (fun x hx => by simp only [updFn_ne _ hx])
      (by simp only [updFn_self, hph]; rfl)
    simp only [holderCount] at h1 ⊢
    rw [hcg]
    exact h1
  · intro u hu
    obtain ⟨hun, hup⟩ := h2 u hu
    refine ⟨hun, ?_⟩
    show updFn s.phase w WPhase.hostReleased u = WPhase.semWaiting
    rw [updFn_ne _ (phase_ne hup hph (fun hh => WPhase.noConfusion hh))]
    exact hup
  · intro h
    obtain ⟨hm, hnd⟩ := h4 h
    refine ⟨?_, hnd⟩
    intro u hu
    obtain ⟨hun, hup, huh⟩ := hm u hu
    refine ⟨hun, ?_, huh⟩
    show updFn s.phase w WPhase.hostReleased u = WPhase.hostWaiting
    rw [updFn_ne _ (phase_ne hup hph (fun hh => WPhase.noConfusion hh))]
    exact hup
  · intro h
    have hcg := countP_range_congr_off (w := w) (n := cfg.nW)
      (p := fun x => holdsHost (updFn s.phase w .hostReleased x) && decide (cfg.hostOf x = h))
      (q := fun x => holdsHost (s.phase x) && decide (cfg.hostOf x = h))
      (fun x hx => by simp only [updFn_ne _ hx])
      (by simp only [updFn_self, hph]; rfl)
    simp only [hostHolderCount] at h5 ⊢
    rw [hcg]
    exact h5 h
  · intro x st hst
    by_cases hxw : x = w
    · subst hxw
      have hst' : updFn s.phase x WPhase.hostReleased x = WPhase.fetching st := hst
      rw [updFn_self] at hst'
      exact absurd hst' (fun hh => WPhase.noConfusion hh)
    · have h0 : updFn s.phase w WPhase.hostReleased x = WPhase.fetching st := hst
      rw [updFn_ne _ hxw] at h0
      exact h7 x st h0
  · intro e he
    rcases h8 e he with ⟨w', hw', hwo, hwp⟩ | hcov
    · refine Or.inl ⟨w', hw', hwo, ?_⟩
      show updFn s.phase w WPhase.hostReleased w' = WPhase.fetching e.2
      rw [updFn_ne _ (phase_ne hwp hph (fun hh => WPhase.noConfusion hh))]
      exact hwp
    · exact Or.inr hcov

end Scraper

namespace Scraper

theorem schedInv_startFetch (cfg : SchedCfg) (w : Nat) (s : SchedState)
    (hw : w < cfg.nW) (hph : s.phase w = .hostHeld)
    (hgate : ∀ t, s.lastReq (cfg.hostOf w) = some t → t + cfg.delayMs ≤ s.now)
    (hinv : SchedInv cfg s) :
    SchedInv cfg { s with
      phase := updFn s.phase w (.fetching s.now),
      log := s.log ++ [(cfg.hostOf w, s.now)] } := by
  obtain ⟨h1, h2, h3, h4, h5, h6, h7, h8, h9⟩ := hinv
  refine ⟨?_, ?_, h3, ?_, ?_, h6, ?_, ?_, ?_⟩
  · have hcg := countP_range_congr_off (w := w) (n := cfg.nW)
      (p := fun x => isHolder (updFn s.phase w (.fetching s.now) x))
      (q := fun x => isHolder (s.phase x))
      (fun x hx => by simp only [updFn_ne _ hx])
      (by simp only [updFn_self, hph]; rfl)
    simp only [holderCount] at h1 ⊢
    rw [hcg]
    exact h1
  · intro u hu
    obtain ⟨hun, hup⟩ := h2 u hu
    refine ⟨hun, ?_⟩
    show updFn s.phase w (WPhase.fetching s.now) u = WPhase.semWaiting
    rw [updFn_ne _ (phase_ne hup hph (fun hh => WPhase.noConfusion hh))]
    exact hup
  · intro h
    obtain ⟨hm, hnd⟩ := h4 h
    refine ⟨?_, hnd⟩
    intro u hu
    obtain ⟨hun, hup, huh⟩ := hm u hu
    refine ⟨hun, ?_, huh⟩
    show updFn s.phase w (WPhase.fetching s.now) u = WPhase.hostWaiting
    rw [updFn_ne _ (phase_ne hup hph (fun hh => WPhase.noConfusion hh))]
    exact hup
  · intro h
    have hcg := countP_range_congr_off (w := w) (n := cfg.nW)
      (p := fun x => holdsHost (updFn s.phase w (.fetching s.now) x) && decide (cfg.hostOf x = h))
      (q := fun x => holdsHost (s.phase x) && decide (cfg.hostOf x = h))
      (fun x hx => by simp only [updFn_ne _ hx])
      (by simp only [updFn_self, hph]; rfl)
    simp only [hostHolderCount] at h5 ⊢
    rw [hcg]
    exact h5 h
  · intro x st hst
    by_cases hxw : x = w
    · subst hxw
      have hst' : updFn s.phase x (WPhase.fetching s.now) x = WPhase.fetching st := hst
      rw [updFn_self] at hst'
      injection hst' with hst2
      show st ≤ s.now
      omega
    · have h0 : updFn s.phase w (WPhase.fetching s.now) x = WPhase.fetching st := hst
      rw [updFn_ne _ hxw] at h0
      exact h7 x st h0
  · intro e he
    dsimp only at he
    rw [List.mem_append] at he
    rcases he with he | he
    · rcases h8 e he with ⟨w', hw', hwo, hwp⟩ | hcov
      · refine Or.inl ⟨w', hw', hwo, ?_⟩
        show updFn s.phase w (WPhase.fetching s.now) w' = WPhase.fetching e.2
        rw [updFn_ne _ (phase_ne hwp hph (fun hh => WPhase.noConfusion hh))]
        exact hwp
      · exact Or.inr hcov
    · rw [List.mem_singleton] at he
      subst he
      refine Or.inl ⟨w, hw, rfl, ?_⟩
      show updFn s.phase w (WPhase.fetching s.now) w = WPhase.fetching s.now
      rw [updFn_self]
  · show (s.log ++ [(cfg.hostOf w, s.now)]).Pairwise
      (fun e1 e2 => e1.1 = e2.1 → e1.2 + cfg.delayMs ≤ e2.2)
    rw [List.pairwise_append]
    refine ⟨h9, List.pairwise_singleton _ _, ?_⟩
    intro e1 he1 e2 he2
    rw [List.mem_singleton] at he2
    subst he2
    intro heq
    have heq' : e1.1 = cfg.hostOf w := heq
    show e1.2 + cfg.delayMs ≤ s.now
    rcases h8 e1 he1 with ⟨w', hw', hwo, hwp⟩ | ⟨t, hlr, hle⟩
    · have hne : w' ≠ w := phase_ne hwp hph (fun hh => WPhase.noConfusion hh)
      have h2c := two_le_countP (n := cfg.nW)
        (p := fun x => holdsHost (s.phase x) && decide (cfg.hostOf x = cfg.hostOf w))
        hw' hw hne
        (by
          show (holdsHost (s.phase w') && decide (cfg.hostOf w' = cfg.hostOf w)) = true
          rw [hwp, hwo, heq']
          simp only [Bool.and_eq_true, decide_eq_true_eq]
          exact ⟨rfl, trivial⟩)
        (by
          show (holdsHost (s.phase w) && decide (cfg.hostOf w = cfg.hostOf w)) = true
          rw [hph]
          simp only [Bool.and_eq_true, decide_eq_true_eq]
          exact ⟨rfl, trivial⟩)
      have h5w := h5 (cfg.hostOf w)
      simp only [hostHolderCount] at h5w
      omega
    · rw [heq'] at hlr
      have hg := hgate t hlr
      omega

theorem schedInv_endFetchFree (cfg : SchedCfg) (w : Nat) (s : SchedState) (st : Nat)
    (hw : w < cfg.nW) (hph : s.phase w = .fetching st)
    (hq0 : s.hostQueue (cfg.hostOf w) = [])
    (hinv : SchedInv cfg s) :
    SchedInv cfg { s with
      lastReq := updHost s.lastReq (cfg.hostOf w) (some s.now),
      hostFree := updHost s.hostFree (cfg.hostOf w) true,
      phase := updFn s.phase w .hostReleased } := by
  obtain ⟨h1, h2, h3, h4, h5, h6, h7, h8, h9⟩ := hinv
  refine ⟨?_, ?_, h3, ?_, ?_, ?_, ?_, ?_, h9⟩
  · have hcg := countP_range_congr_off (w := w) (n := cfg.nW)
      (p := fun x => isHolder (updFn s.phase w .hostReleased x))
      (q := fun x => isHolder (s.phase x))
      (fun x hx => by simp only [updFn_ne _ hx])
      (by simp only [updFn_self, hph]; rfl)
    simp only [holderCount] at h1 ⊢
    rw [hcg]
    exact h1
  · intro u hu
    obtain ⟨hun, hup⟩ := h2 u hu
    refine ⟨hun, ?_⟩
    show updFn s.phase w WPhase.hostReleased u = WPhase.semWaiting
    rw [updFn_ne _ (phase_ne hup hph (fun hh => WPhase.noConfusion hh))]
    exact hup
  · intro h
    obtain ⟨hm, hnd⟩ := h4 h
    refine ⟨?_, hnd⟩
    intro u hu
    obtain ⟨hun, hup, huh⟩ := hm u hu
    refine ⟨hun, ?_, huh⟩
    show updFn s.phase w WPhase.hostReleased u = WPhase.hostWaiting
    rw [updFn_ne _ (phase_ne hup hph (fun hh => WPhase.noConfusion hh))]
    exact hup
  · intro h
    by_cases hh : h = cfg.hostOf w
    · subst hh
      have hsw := countP_range_swap
        (p := fun x => holdsHost (updFn s.phase w .hostReleased x)
          && decide (cfg.hostOf x = cfg.hostOf w))
        (q := fun x => holdsHost (s.phase x) && decide (cfg.hostOf x = cfg.hostOf w))
        (fun x hx => by simp only [updFn_ne _ hx]) hw
      simp only [updFn_self, hph] at hsw
      have hh1 : holdsHost (WPhase.fetching st) = true := rfl
      have hh0 : holdsHost WPhase.hostReleased = false := rfl
      simp [hh1, hh0] at hsw
      have h5w := h5 (cfg.hostOf w)
      simp only [hostHolderCount] at h5w hsw ⊢
      try dsimp only
      have hg : (if (updHost s.hostFree (cfg.hostOf w) true) (cfg.hostOf w) = true
          then 1 else 0) = 1 := by
        simp [updHost_self]
      rw [hg]
      omega
    · have hd : decide (cfg.hostOf w = h) = false :=
        decide_eq_false (fun hh2 => hh hh2.symm)
      have hcg := countP_range_congr_off (w := w) (n := cfg.nW)
        (p := fun x => holdsHost (updFn s.phase w .hostReleased x) && decide (cfg.hostOf x = h))
        (q := fun x => holdsHost (s.phase x) && decide (cfg.hostOf x = h))
        (fun x hx => by simp only [updFn_ne _ hx])
        (by simp only [updFn_self, hph, hd, Bool.and_false])
      simp only [hostHolderCount] at h5 ⊢
      simp only [updHost_ne _ hh, hcg]
      exact h5 h
  · intro h t ht
    dsimp only at ht ⊢
    by_cases hh : h = cfg.hostOf w
    · subst hh
      rw [updHost_self] at ht
      injection ht with ht2
      omega
    · rw [updHost_ne _ hh] at ht
      exact h6 h t ht
  · intro x st' hst
    by_cases hxw : x = w
    · subst hxw
      have hst' : updFn s.phase x WPhase.hostReleased x = WPhase.fetching st' := hst
      rw [updFn_self] at hst'
      exact absurd hst' (fun hh => WPhase.noConfusion hh)
    · have h0 : updFn s.phase w WPhase.hostReleased x = WPhase.fetching st' := hst
      rw [updFn_ne _ hxw] at h0
      exact h7 x st' h0
  · intro e he
    rcases h8 e he with ⟨w', hw', hwo, hwp⟩ | ⟨t, hlr, hle⟩
    · by_cases hww : w' = w
      · subst hww
        rw [hph] at hwp
        injection hwp with hst2
        refine Or.inr ⟨s.now, ?_, ?_⟩
        · show updHost s.lastReq (cfg.hostOf w') (some s.now) e.1 = some s.now
          rw [← hwo, updHost_self]
        · have := h7 w' st hph
          omega
      · refine Or.inl ⟨w', hw', hwo, ?_⟩
        show updFn s.phase w WPhase.hostReleased w' = WPhase.fetching e.2
        rw [updFn_ne _ hww]
        exact hwp
    · by_cases hh : e.1 = cfg.hostOf w
      · refine Or.inr ⟨s.now, ?_, ?_⟩
        · show updHost s.lastReq (cfg.hostOf w) (some s.now) e.1 = some s.now
          rw [hh, updHost_self]
        · exact le_trans hle (h6 e.1 t hlr)
      · refine Or.inr ⟨t, ?_, hle⟩
        show updHost s.lastReq (cfg.hostOf w) (some s.now) e.1 = some t
        rw [updHost_ne _ hh]
        exact hlr

end Scraper

namespace Scraper

theorem schedInv_endFetchPass (cfg : SchedCfg) (w v : Nat) (rest : List Nat)
    (s : SchedState) (st : Nat)
    (hw : w < cfg.nW) (hph : s.phase w = .fetching st)
    (hq : s.hostQueue (cfg.hostOf w) = v :: rest)
    (hinv : SchedInv cfg s) :
    SchedInv cfg { s with
      lastReq := updHost s.lastReq (cfg.hostOf w) (some s.now),
      hostQueue := updHost s.hostQueue (cfg.hostOf w) rest,
      phase := updFn (updFn s.phase w .hostReleased) v .hostHeld } := by
  obtain ⟨h1, h2, h3, h4, h5, h6, h7, h8, h9⟩ := hinv
  obtain ⟨hm, hnd⟩ := h4 (cfg.hostOf w)
  have hvmem : v ∈ s.hostQueue (cfg.hostOf w) := by
    rw [hq]
    exact List.mem_cons_self _ _
  obtain ⟨hvn, hvp, hvo⟩ := hm v hvmem
  have hvw : v ≠ w := phase_ne hvp hph (fun hh => WPhase.noConfusion hh)
  have hwv : w ≠ v := fun he => hvw he.symm
  have hvrest : v ∉ rest := by
    have h0 := hnd
    rw [hq, List.nodup_cons] at h0
    exact h0.1
  have hrestnd : rest.Nodup := by
    have h0 := hnd
    rw [hq, List.nodup_cons] at h0
    exact h0.2
  refine ⟨?_, ?_, h3, ?_, ?_, ?_, ?_, ?_, h9⟩
  · have hcg1 := countP_range_congr_off (w := v) (n := cfg.nW)
      (p := fun x => isHolder (updFn (updFn s.phase w .hostReleased) v .hostHeld x))
      (q := fun x => isHolder (updFn s.phase w .hostReleased x))
      (fun x hx => by simp only [updFn_ne _ hx])
      (by simp only [updFn_self, updFn_ne _ hvw, hvp]; rfl)
    have hcg2 := countP_range_congr_off (w := w) (n := cfg.nW)
      (p := fun x => isHolder (updFn s.phase w .hostReleased x))
      (q := fun x => isHolder (s.phase x))
      (fun x hx => by simp only [updFn_ne _ hx])
      (by simp only [updFn_self, hph]; rfl)
    simp only [holderCount] at h1 ⊢
    rw [hcg1, hcg2]
    exact h1
  · intro u hu
    obtain ⟨hun, hup⟩ := h2 u hu
    refine ⟨hun, ?_⟩
    show updFn (updFn s.phase w .hostReleased) v .hostHeld u = WPhase.semWaiting
    rw [updFn_ne _ (phase_ne hup hvp (fun hh => WPhase.noConfusion hh)),
        updFn_ne _ (phase_ne hup hph (fun hh => WPhase.noConfusion hh))]
    exact hup
  · intro h
    by_cases hh : h = cfg.hostOf w
    · subst hh
      have hqe : (updHost s.hostQueue (cfg.hostOf w) rest) (cfg.hostOf w) = rest :=
        updHost_self _ _ _
      refine ⟨?_, ?_⟩
      · intro u hu
        dsimp only at hu
        rw [hqe] at hu
        have humem : u ∈ s.hostQueue (cfg.hostOf w) := by
          rw [hq]
          exact List.mem_cons_of_mem _ hu
        obtain ⟨hun, hup, huh⟩ := hm u humem
        refine ⟨hun, ?_, huh⟩
        have huv : u ≠ v := fun he => hvrest (he ▸ hu)
        show updFn (updFn s.phase w .hostReleased) v .hostHeld u = WPhase.hostWaiting
        rw [updFn_ne _ huv,
            updFn_ne _ (phase_ne hup hph (fun hh => WPhase.noConfusion hh))]
        exact hup
      · show ((updHost s.hostQueue (cfg.hostOf w) rest) (cfg.hostOf w)).Nodup
        rw [hqe]
        exact hrestnd
    · obtain ⟨hm2, hnd2⟩ := h4 h
      have hqe : (updHost s.hostQueue (cfg.hostOf w) rest) h = s.hostQueue h :=
        updHost_ne _ hh
      refine ⟨?_, ?_⟩
      · intro u hu
        dsimp only at hu
        rw [hqe] at hu
        obtain ⟨hun, hup, huh⟩ := hm2 u hu
        refine ⟨hun, ?_, huh⟩
        have huv : u ≠ v := fun he => hh (by rw [← huh, he]; exact hvo)
        show updFn (updFn s.phase w .hostReleased) v .hostHeld u = WPhase.hostWaiting
        rw [updFn_ne _ huv,
            updFn_ne _ (phase_ne hup hph (fun hh2 => WPhase.noConfusion hh2))]
        exact hup
      · show ((updHost s.hostQueue (cfg.hostOf w) rest) h).Nodup
        rw [hqe]
        exact hnd2
  · intro h
    by_cases hh : h = cfg.hostOf w
    · subst hh
      have hsw := countP_range_swap2 (n := cfg.nW)
        (p := fun x => holdsHost (updFn (updFn s.phase w .hostReleased) v .hostHeld x)
          && decide (cfg.hostOf x = cfg.hostOf w))
        (q := fun x => holdsHost (s.phase x) && decide (cfg.hostOf x = cfg.hostOf w))
        (fun x hx1 hx2 => by simp only [updFn_ne _ hx2, updFn_ne _ hx1]) hwv hw hvn
      simp only [updFn_self, updFn_ne _ hwv, hph, hvp, hvo] at hsw
      have e1 : holdsHost (WPhase.fetching st) = true := rfl
      have e2 : holdsHost WPhase.hostWaiting = false := rfl
      have e3 : holdsHost WPhase.hostReleased = false := rfl
      have e4 : holdsHost WPhase.hostHeld = true := rfl
      simp [e1, e2, e3, e4] at hsw
      have h5w := h5 (cfg.hostOf w)
      simp only [hostHolderCount] at h5w ⊢
      try dsimp only
      omega
    · have hd : decide (cfg.hostOf w = h) = false :=
        decide_eq_false (fun hh2 => hh hh2.symm)
      have hd2 : decide (cfg.hostOf v = h) = false :=
        decide_eq_false (fun hh2 => hh (by rw [← hh2]; exact hvo))
      have hcg1 := countP_range_congr_off (w := v) (n := cfg.nW)
        (p := fun x => holdsHost (updFn (updFn s.phase w .hostReleased) v .hostHeld x)
          && decide (cfg.hostOf x = h))
        (q := fun x => holdsHost (updFn s.phase w .hostReleased x) && decide (cfg.hostOf x = h))
        (fun x hx => by simp only [updFn_ne _ hx])
        (by simp only [updFn_self, updFn_ne _ hvw, hd2, Bool.and_false])
      have hcg2 := countP_range_congr_off (w := w) (n := cfg.nW)
        (p := fun x => holdsHost (updFn s.phase w .hostReleased x) && decide (cfg.hostOf x = h))
        (q := fun x => holdsHost (s.phase x) && decide (cfg.hostOf x = h))
        (fun x hx => by simp only [updFn_ne _ hx])
        (by simp only [updFn_self, hph, hd, Bool.and_false])
      simp only [hostHolderCount] at h5 ⊢
      simp only [updHost_ne _ hh, hcg1, hcg2]
      exact h5 h
  · intro h t ht
    dsimp only at ht ⊢
    by_cases hh : h = cfg.hostOf w
    · subst hh
      rw [updHost_self] at ht
      injection ht with ht2
      omega
    · rw [updHost_ne _ hh] at ht
      exact h6 h t ht
  · intro x st' hst
    by_cases hxv : x = v
    · subst hxv
      have hst' : updFn (updFn s.phase w .hostReleased) x .hostHeld x
          = WPhase.fetching st' := hst
      rw [updFn_self] at hst'
      exact absurd hst' (fun hh => WPhase.noConfusion hh)
    · by_cases hxw : x = w
      · subst hxw
        have hst' : updFn (updFn s.phase x .hostReleased) v .hostHeld x
            = WPhase.fetching st' := hst
        rw [updFn_ne _ hxv, updFn_self] at hst'
        exact absurd hst' (fun hh => WPhase.noConfusion hh)
      · have h0 : updFn (updFn s.phase w .hostReleased) v .hostHeld x
            = WPhase.fetching st' := hst
        rw [updFn_ne _ hxv, updFn_ne _ hxw] at h0
        exact h7 x st' h0
  · intro e he
    rcases h8 e he with ⟨w', hw', hwo, hwp⟩ | ⟨t, hlr, hle⟩
    · by_cases hww : w' = w
      · subst hww
        rw [hph] at hwp
        injection hwp with hst2
        refine Or.inr ⟨s.now, ?_, ?_⟩
        · show updHost s.lastReq (cfg.hostOf w') (some s.now) e.1 = some s.now
          rw [← hwo, updHost_self]
        · have := h7 w' st hph
          omega
      · have hwv2 : w' ≠ v := phase_ne hwp hvp (fun hh => WPhase.noConfusion hh)
        refine Or.inl ⟨w', hw', hwo, ?_⟩
        show updFn (updFn s.phase w .hostReleased) v .hostHeld w' = WPhase.fetching e.2
        rw [updFn_ne _ hwv2, updFn_ne _ hww]
        exact hwp
    · by_cases hh : e.1 = cfg.hostOf w
      · refine Or.inr ⟨s.now, ?_, ?_⟩
        · show updHost s.lastReq (cfg.hostOf w) (some s.now) e.1 = some s.now
          rw [hh, updHost_self]
        · exact le_trans hle (h6 e.1 t hlr)
      · refine Or.inr ⟨t, ?_, hle⟩
        show updHost s.lastReq (cfg.hostOf w) (some s.now) e.1 = some t
        rw [updHost_ne _ hh]
        exact hlr

theorem schedInv_semReleaseFree (cfg : SchedCfg) (w : Nat) (s : SchedState)
    (hw : w < cfg.nW) (hph : s.phase w = .hostReleased) (hsq : s.semQueue = [])
    (hinv : SchedInv cfg s) :
    SchedInv cfg { s with
      semCount := s.semCount + 1,
      phase := updFn s.phase w .done } := by
  obtain ⟨h1, h2, h3, h4, h5, h6, h7, h8, h9⟩ := hinv
  refine ⟨?_, ?_, h3, ?_, ?_, h6, ?_, ?_, h9⟩
  · have hsw := countP_range_swap
      (p := fun x => isHolder (updFn s.phase w .done x))
      (q := fun x => isHolder (s.phase x))
      (fun x hx => by simp only [updFn_ne _ hx]) hw
    simp only [updFn_self, hph] at hsw
    have he1 : isHolder WPhase.hostReleased = true := rfl
    have he2 : isHolder WPhase.done = false := rfl
    simp [he1, he2] at hsw
    simp only [holderCount] at h1 ⊢
    try dsimp only
    omega
  · intro u hu
    dsimp only at hu
    rw [hsq] at hu
    exact absurd hu (List.not_mem_nil u)
  · intro h
    obtain ⟨hm, hnd⟩ := h4 h
    refine ⟨?_, hnd⟩
    intro u hu
    obtain ⟨hun, hup, huh⟩ := hm u hu
    refine ⟨hun, ?_, huh⟩
    show updFn s.phase w WPhase.done u = WPhase.hostWaiting
    rw [updFn_ne _ (phase_ne hup hph (fun hh => WPhase.noConfusion hh))]
    exact hup
  · intro h
    have hcg := countP_range_congr_off (w := w) (n := cfg.nW)
      (p := fun x => holdsHost (updFn s.phase w .done x) && decide (cfg.hostOf x = h))
      (q := fun x => holdsHost (s.phase x) && decide (cfg.hostOf x = h))
      (fun x hx => by simp only [updFn_ne _ hx])
      (by simp only [updFn_self, hph]; rfl)
    simp only [hostHolderCount] at h5 ⊢
    rw [hcg]
    exact h5 h
  · intro x st hst
    by_cases hxw : x = w
    · subst hxw
      have hst' : updFn s.phase x WPhase.done x = WPhase.fetching st := hst
      rw [updFn_self] at hst'
      exact absurd hst' (fun hh => WPhase.noConfusion hh)
    · have h0 : updFn s.phase w WPhase.done x = WPhase.fetching st := hst
      rw [updFn_ne _ hxw] at h0
      exact h7 x st h0
  · intro e he
    rcases h8 e he with ⟨w', hw', hwo, hwp⟩ | hcov
    · refine Or.inl ⟨w', hw', hwo, ?_⟩
      show updFn s.phase w WPhase.done w' = WPhase.fetching e.2
      rw [updFn_ne _ (phase_ne hwp hph (fun hh => WPhase.noConfusion hh))]
      exact hwp
    · exact Or.inr hcov

theorem schedInv_semReleasePass (cfg : SchedCfg) (w v : Nat) (rest : List Nat)
    (s : SchedState)
    (hw : w < cfg.nW) (hph : s.phase w = .hostReleased) (hsq : s.semQueue = v :: rest)
    (hinv : SchedInv cfg s) :
    SchedInv cfg { s with
      semQueue := rest,
      phase := updFn (updFn s.phase w .done) v .semHeld } := by
  obtain ⟨h1, h2, h3, h4, h5, h6, h7, h8, h9⟩ := hinv
  have hvmem : v ∈ s.semQueue := by
    rw [hsq]
    exact List.mem_cons_self _ _
  obtain ⟨hvn, hvp⟩ := h2 v hvmem
  have hvw : v ≠ w := phase_ne hvp hph (fun hh => WPhase.noConfusion hh)
  have hwv : w ≠ v := fun he => hvw he.symm
  have hvrest : v ∉ rest := by
    have h0 := h3
    rw [hsq, List.nodup_cons] at h0
    exact h0.1
  have hrestnd : rest.Nodup := by
    have h0 := h3
    rw [hsq, List.nodup_cons] at h0
    exact h0.2
  refine ⟨?_, ?_, hrestnd, ?_, ?_, h6, ?_, ?_, h9⟩
  · have hsw := countP_range_swap2 (n := cfg.nW)
      (p := fun x => isHolder (updFn (updFn s.phase w .done) v .semHeld x))
      (q := fun x => isHolder (s.phase x))
      (fun x hx1 hx2 => by simp only [updFn_ne _ hx2, updFn_ne _ hx1]) hwv hw hvn
    simp only [updFn_self, updFn_ne _ hwv, hph, hvp] at hsw
    have e1 : isHolder WPhase.hostReleased = true := rfl
    have e2 : isHolder WPhase.semWaiting = false := rfl
    have e3 : isHolder WPhase.done = false := rfl
    have e4 : isHolder WPhase.semHeld = true := rfl
    simp [e1, e2, e3, e4] at hsw
    simp only [holderCount] at h1 ⊢
    try dsimp only
    omega
  · intro u hu
    dsimp only at hu
    have humem : u ∈ s.semQueue := by
      rw [hsq]
      exact List.mem_cons_of_mem _ hu
    obtain ⟨hun, hup⟩ := h2 u humem
    refine ⟨hun, ?_⟩
    have huv : u ≠ v := fun he => hvrest (he ▸ hu)
    show updFn (updFn s.phase w .done) v .semHeld u = WPhase.semWaiting
    rw [updFn_ne _ huv,
        updFn_ne _ (phase_ne hup hph (fun hh => WPhase.noConfusion hh))]
    exact hup
  · intro h
    obtain ⟨hm, hnd⟩ := h4 h
    refine ⟨?_, hnd⟩
    intro u hu
    obtain ⟨hun, hup, huh⟩ := hm u hu
    refine ⟨hun, ?_, huh⟩
    show updFn (updFn s.phase w .done) v .semHeld u = WPhase.hostWaiting
    rw [updFn_ne _ (phase_ne hup hvp (fun hh => WPhase.noConfusion hh)),
        updFn_ne _ (phase_ne hup hph (fun hh => WPhase.noConfusion hh))]
    exact hup
  · intro h
    have hcg1 := countP_range_congr_off (w := v) (n := cfg.nW)
      (p := fun x => holdsHost (updFn (updFn s.phase w .done) v .semHeld x)
        && decide (cfg.hostOf x = h))
      (q := fun x => holdsHost (updFn s.phase w .done x) && decide (cfg.hostOf x = h))
      (fun x hx => by simp only [updFn_ne _ hx])
      (by simp only [updFn_self, updFn_ne _ hvw, hvp]; rfl)
    have hcg2 := countP_range_congr_off (w := w) (n := cfg.nW)
      (p := fun x => holdsHost (updFn s.phase w .done x) && decide (cfg.hostOf x = h))
      (q := fun x => holdsHost (s.phase x) && decide (cfg.hostOf x = h))
      (fun x hx => by simp only [updFn_ne _ hx])
      (by simp only [updFn_self, hph]; rfl)
    simp only [hostHolderCount] at h5 ⊢
    rw [hcg1, hcg2]
    exact h5 h
  · intro x st hst
    by_cases hxv : x = v
    · subst hxv
      have hst' : updFn (updFn s.phase w .done) x .semHeld x = WPhase.fetching st := hst
      rw [updFn_self] at hst'
      exact absurd hst' (fun hh => WPhase.noConfusion hh)
    · by_cases hxw : x = w
      · subst hxw
        have hst' : updFn (updFn s.phase x .done) v .semHeld x = WPhase.fetching st := hst
        rw [updFn_ne _ hxv, updFn_self] at hst'
        exact absurd hst' (fun hh => WPhase.noConfusion hh)
      · have h0 : updFn (updFn s.phase w .done) v .semHeld x = WPhase.fetching st := hst
        rw [updFn_ne _ hxv, updFn_ne _ hxw] at h0
        exact h7 x st h0
  · intro e he
    rcases h8 e he with ⟨w', hw', hwo, hwp⟩ | hcov
    · have hwv2 : w' ≠ v := phase_ne hwp hvp (fun hh => WPhase.noConfusion hh)
      have hww : w' ≠ w := phase_ne hwp hph (fun hh => WPhase.noConfusion hh)
      refine Or.inl ⟨w', hw', hwo, ?_⟩
      show updFn (updFn s.phase w .done) v .semHeld w' = WPhase.fetching e.2
      rw [updFn_ne _ hwv2, updFn_ne _ hww]
      exact hwp
    · exact Or.inr hcov

end Scraper

namespace Scraper

theorem schedInv_step {cfg : SchedCfg} {s s' : SchedState}
    (hst : SchedStep cfg s s') (hinv : SchedInv cfg s) : SchedInv cfg s' := by
  cases hst with
  | tick s => exact schedInv_tick cfg s hinv
  | semAcquireFast w s hw hph hc => exact schedInv_semAcqFast cfg w s hw hph hc hinv
  | semAcquireWait w s hw hph hc => exact schedInv_semAcqWait cfg w s hw hph hc hinv
  | hostAcquire w s hw hph hfree => exact schedInv_hostAcquire cfg w s hw hph hfree hinv
  | hostWait w s hw hph hfree => exact schedInv_hostWait cfg w s hw hph hinv
  | startFetch w s hw hph hgate => exact schedInv_startFetch cfg w s hw hph hgate hinv
  | endFetchFree w s st hw hph hq0 => exact schedInv_endFetchFree cfg w s st hw hph hq0 hinv
  | endFetchPass w v rest s st hw hph hq =>
      exact schedInv_endFetchPass cfg w v rest s st hw hph hq hinv
  | skipFetch w s hw hph => exact schedInv_skipFetch cfg w s hw hph hinv
  | semReleaseFree w s hw hph hsq => exact schedInv_semReleaseFree cfg w s hw hph hsq hinv
  | semReleasePass w v rest s hw hph hsq =>
      exact schedInv_semReleasePass cfg w v rest s hw hph hsq hinv

theorem schedInv_init (cfg : SchedCfg) : SchedInv cfg (schedInit cfg) := by
  refine ⟨?_, ?_, ?_, ?_, ?_, ?_, ?_, ?_, ?_⟩
  · have h0 : holderCount cfg (schedInit cfg)
        = (List.range cfg.nW).countP (fun _ => false) := rfl
    show holderCount cfg (schedInit cfg) + cfg.conc = cfg.conc
    rw [h0, List.countP_false]
    exact Nat.zero_add _
  · intro u hu
    exact absurd hu (List.not_mem_nil u)
  · exact List.nodup_nil
  · intro h
    exact ⟨fun u hu => absurd hu (List.not_mem_nil u), List.nodup_nil⟩
  · intro h
    have h0 : hostHolderCount cfg (schedInit cfg) h
        = (List.range cfg.nW).countP (fun _ => false) := rfl
    show hostHolderCount cfg (schedInit cfg) h + 1 = 1
    rw [h0, List.countP_false]
    exact Nat.zero_add _
  · intro h t ht
    exact absurd ht (fun hh => Option.noConfusion hh)
  · intro w st hst
    exact absurd hst (fun hh => WPhase.noConfusion hh)
  · intro e he
    exact absurd he (List.not_mem_nil e)
  · exact List.Pairwise.nil

theorem schedInv_reachable {cfg : SchedCfg} {s : SchedState}
    (h : SchedReachable cfg s) : SchedInv cfg s := by
  induction h with
  | init => exact schedInv_init cfg
  | step hr hst ih => exact schedInv_step hst ih

theorem isFetching_isHolder {ph : WPhase} (h : isFetching ph = true) :
    isHolder ph = true := by
  cases ph <;> first | rfl | exact Bool.noConfusion h

/-- C5: at no instant of a crawl run do more than `concurrency` fetches
execute concurrently, and no two fetch starts on the same host lie
closer together than `delayMs`, for every interleaving of the worker
steps: in every reachable scheduler state the number of in-flight
fetches is at most `conc` (the global counting semaphore's capacity),
and the log of (host, start-time) pairs is pairwise separated by at
least `delayMs` per host (the per-host size-1 lock plus the
last-request timestamp wait of `_scrapePage`). -/
theorem scrape_concurrency_politeness :
    ∀ (cfg : SchedCfg) (s : SchedState), SchedReachable cfg s →
      fetchCount cfg s ≤ cfg.conc ∧
      s.log.Pairwise (fun e1 e2 => e1.1 = e2.1 → e1.2 + cfg.delayMs ≤ e2.2) := by
  intro cfg s h
  obtain ⟨h1, _, _, _, _, _, _, _, h9⟩ := schedInv_reachable h
  refine ⟨?_, h9⟩
  have hmono : fetchCount cfg s ≤ holderCount cfg s :=
    List.countP_mono_left (fun x _ hx => isFetching_isHolder hx)
  omega

/-- Witness: the initial state of a one-worker run with concurrency 1
and a 5 ms delay satisfies both bounds. -/
theorem scrape_concurrency_politeness_witness :
    fetchCount ⟨1, 5, 1, fun _ => lc "h"⟩ (schedInit ⟨1, 5, 1, fun _ => lc "h"⟩) ≤ 1 ∧
    (schedInit ⟨1, 5, 1, fun _ => lc "h"⟩).log.Pairwise
      (fun e1 e2 => e1.1 = e2.1 → e1.2 + 5 ≤ e2.2) :=
  scrape_concurrency_politeness ⟨1, 5, 1, fun _ => lc "h"⟩ _ SchedReachable.init

end Scraper
